import Mathlib

set_option maxRecDepth 8000

/-!
Verification development for the starcoin state-tree core and block types.

The first part embeds `UncleSummary::new` and the human-readable
serialization of `BlockHeaderExtra` from `types/src/block.rs`.

The second part embeds the sparse (jellyfish) Merkle state tree: the node
model, the engine operations (get, insert/delete, proofs, dump), the
pending-write cache and the `StateTree` facade, together with the flushed
node store used by views reconstructed from a root hash.
-/

/-- `UncleSummary` from `types/src/block.rs` (lines 852-861): uncle counters
with precomputed integer averages.  `u64` fields are modelled as `Nat`; the
only arithmetic performed is division, which cannot overflow. -/
structure UncleSummary where
  uncles : Nat
  sum : Nat
  avg : Nat
  time_sum : Nat
  time_avg : Nat
deriving Repr, DecidableEq

/-- `UncleSummary::new` from `types/src/block.rs` (lines 863-878): the
averages are `sum / uncles` and `time_sum / uncles` when `uncles > 0`,
and `0` otherwise, so the division is always guarded. -/
def UncleSummary.new (uncles sum time_sum : Nat) : UncleSummary :=
  let p := if 0 < uncles then (sum / uncles, time_sum / uncles) else (0, 0)
  { uncles := uncles, sum := sum, avg := p.1, time_sum := time_sum, time_avg := p.2 }

/-- Lowercase hex digit for a value `< 16`, as produced by `hex::encode`
(`types/src/block.rs` line 79): `0..9` map to `'0'..'9'` (codes 48..57) and
`10..15` map to `'a'..'f'` (codes 97..102). -/
def hexDigitChar (n : Nat) : Char :=
  if n < 10 then Char.ofNat (48 + n) else Char.ofNat (87 + n)

/-- `hex::encode`: each byte becomes its high nibble's digit followed by its
low nibble's digit. -/
def hexEncode (bs : List Nat) : List Char :=
  bs.flatMap (fun b => [hexDigitChar (b / 16), hexDigitChar (b % 16)])

/-- Value of one hex character as accepted by `hex::decode`: decimal digits,
lowercase `a`-`f` and uppercase `A`-`F`; anything else is rejected. -/
def hexDigitVal (c : Char) : Option Nat :=
  if 48 ≤ c.toNat ∧ c.toNat ≤ 57 then some (c.toNat - 48)
  else if 97 ≤ c.toNat ∧ c.toNat ≤ 102 then some (c.toNat - 87)
  else if 65 ≤ c.toNat ∧ c.toNat ≤ 70 then some (c.toNat - 55)
  else none

/-- `hex::decode`: consumes the characters two at a time; fails on an odd
length or on any non-hex character. -/
def hexDecode : List Char → Option (List Nat)
  | [] => some []
  | [_] => none
  | c1 :: c2 :: rest =>
    match hexDigitVal c1, hexDigitVal c2, hexDecode rest with
    | some h, some l, some bs => some ((16 * h + l) :: bs)
    | _, _, _ => none

/-- `BlockHeaderExtra` from `types/src/block.rs` (lines 26-37): a 4-byte
value.  The `[u8; 4]` payload is modelled as a list of byte values; the
well-formedness facts `bytes.length = 4` and `b < 256` appear as hypotheses
of the theorems about it. -/
structure BlockHeaderExtra where
  bytes : List Nat
deriving Repr, DecidableEq

/-- `BlockHeaderExtra::new`. -/
def BlockHeaderExtra.new (extra : List Nat) : BlockHeaderExtra :=
  ⟨extra⟩

/-- Human-readable `Serialize` impl for `BlockHeaderExtra`
(`types/src/block.rs` lines 73-84): the string `"0x"` followed by the hex
encoding of the 4 bytes. -/
def BlockHeaderExtra.serializeHR (e : BlockHeaderExtra) : List Char :=
  '0' :: 'x' :: hexEncode e.bytes

/-- Human-readable `Deserialize` impl for `BlockHeaderExtra`
(`types/src/block.rs` lines 45-62): strips an optional `"0x"` prefix,
requires the remaining literal to have length exactly 8, hex-decodes it,
and requires the decoded byte count to be exactly 4. -/
def BlockHeaderExtra.deserializeHR (s : List Char) : Option BlockHeaderExtra :=
  let literal := if s.take 2 = ['0', 'x'] then s.drop 2 else s
  if literal.length = 8 then
    match hexDecode literal with
    | none => none
    | some r => if r.length = 4 then some (BlockHeaderExtra.new r) else none
  else none

theorem hexEncode_length (bs : List Nat) : (hexEncode bs).length = 2 * bs.length := by
  induction bs with
  | nil => rfl
  | cons b rest ih => simp [hexEncode] at ih ⊢; omega

theorem hexDigit_roundtrip : ∀ n < 16, hexDigitVal (hexDigitChar n) = some n := by
  decide

theorem hexDigit_isHex : ∀ n < 16, (hexDigitVal (hexDigitChar n)).isSome = true := by
  decide

theorem hexDecode_hexEncode (bs : List Nat) (h : ∀ b ∈ bs, b < 256) :
    hexDecode (hexEncode bs) = some bs := by
  induction bs with
  | nil => rfl
  | cons b rest ih =>
    have hb : b < 256 := h b (List.mem_cons_self ..)
    have hhi : b / 16 < 16 := by omega
    have hlo : b % 16 < 16 := by omega
    have h1 := hexDigit_roundtrip (b / 16) hhi
    have h2 := hexDigit_roundtrip (b % 16) hlo
    have ih' := ih (fun x hx => h x (List.mem_cons_of_mem _ hx))
    simp only [hexEncode, List.flatMap_cons, List.cons_append, List.nil_append]
    show hexDecode (hexDigitChar (b / 16) :: hexDigitChar (b % 16) :: hexEncode rest) = _
    simp only [hexDecode, h1, h2, hexEncode] at ih' ⊢
    rw [ih']
    show some ((16 * (b / 16) + b % 16) :: rest) = some (b :: rest)
    have : 16 * (b / 16) + b % 16 = b := by omega
    rw [this]

theorem hexDecode_none_of_bad :
    ∀ (l : List Char) (c : Char), c ∈ l → hexDigitVal c = none → hexDecode l = none
  | [], c, hc, _ => absurd hc (List.not_mem_nil c)
  | [_], _, _, _ => by simp [hexDecode]
  | c1 :: c2 :: rest, c, hc, hbad => by
    rcases hc with _ | ⟨_, hc⟩
    · simp [hexDecode, hbad]
    · rcases hc with _ | ⟨_, hc⟩
      · cases h1 : hexDigitVal c1 <;> simp [hexDecode, h1, hbad]
      · have ih := hexDecode_none_of_bad rest c hc hbad
        cases h1 : hexDigitVal c1 <;> cases h2 : hexDigitVal c2 <;>
          simp [hexDecode, h1, h2, ih]

/-- C9: `UncleSummary::new` never divides by zero: with `uncles == 0` both
`avg` and `time_avg` are `0`; with `uncles > 0` they are the integer
quotients `sum / uncles` and `time_sum / uncles`; the remaining fields are
stored unchanged, so construction is total. -/
theorem C9_uncle_summary_new_total (uncles sum time_sum : Nat) :
    (UncleSummary.new uncles sum time_sum).uncles = uncles ∧
    (UncleSummary.new uncles sum time_sum).sum = sum ∧
    (UncleSummary.new uncles sum time_sum).time_sum = time_sum ∧
    (uncles = 0 →
      (UncleSummary.new uncles sum time_sum).avg = 0 ∧
      (UncleSummary.new uncles sum time_sum).time_avg = 0) ∧
    (0 < uncles →
      (UncleSummary.new uncles sum time_sum).avg = sum / uncles ∧
      (UncleSummary.new uncles sum time_sum).time_avg = time_sum / uncles) := by
  refine ⟨rfl, rfl, rfl, ?_, ?_⟩
  · intro h
    subst h
    simp [UncleSummary.new]
  · intro h
    simp [UncleSummary.new, h]

/-- Closed-form witness for C9 at concrete inputs. -/
theorem C9_uncle_summary_new_total_witness :
    ((UncleSummary.new 0 7 9).avg = 0 ∧ (UncleSummary.new 0 7 9).time_avg = 0) ∧
    ((UncleSummary.new 3 7 9).avg = 2 ∧ (UncleSummary.new 3 7 9).time_avg = 3) :=
  ⟨(C9_uncle_summary_new_total 0 7 9).2.2.2.1 rfl,
   by
    have h := (C9_uncle_summary_new_total 3 7 9).2.2.2.2 (by decide)
    exact ⟨by rw [h.1], by rw [h.2]⟩⟩

/-- A character is accepted by `hex::decode`. -/
def isHexChar (c : Char) : Bool :=
  (hexDigitVal c).isSome

/-- The literal examined by `BlockHeaderExtra`'s human-readable
deserializer: the input with an optional leading `"0x"` removed. -/
def stripHexLiteral (s : List Char) : List Char :=
  if s.take 2 = ['0', 'x'] then s.drop 2 else s

/-- C10: human-readable `BlockHeaderExtra` serialization round-trips:
serializing any 4-byte value yields `"0x"` followed by exactly 8 hex
digits; deserializing that string returns the original value; and
deserialization rejects any string whose literal (after the optional
`"0x"` prefix) is not exactly 8 hex characters. -/
theorem C10_block_header_extra_roundtrip (e : BlockHeaderExtra)
    (hlen : e.bytes.length = 4) (hbs : ∀ b ∈ e.bytes, b < 256) :
    ((BlockHeaderExtra.serializeHR e).take 2 = ['0', 'x'] ∧
     ((BlockHeaderExtra.serializeHR e).drop 2).length = 8 ∧
     ∀ c ∈ (BlockHeaderExtra.serializeHR e).drop 2, isHexChar c = true) ∧
    BlockHeaderExtra.deserializeHR (BlockHeaderExtra.serializeHR e) = some e ∧
    ∀ s : List Char,
      ((stripHexLiteral s).length ≠ 8 ∨ ∃ c ∈ stripHexLiteral s, isHexChar c = false) →
      BlockHeaderExtra.deserializeHR s = none := by
  have hdrop : (BlockHeaderExtra.serializeHR e).drop 2 = hexEncode e.bytes := rfl
  have hlen8 : (hexEncode e.bytes).length = 8 := by
    rw [hexEncode_length, hlen]
  refine ⟨⟨rfl, ?_, ?_⟩, ?_, ?_⟩
  · rw [hdrop, hlen8]
  · intro c hc
    rw [hdrop] at hc
    simp only [hexEncode, List.mem_flatMap] at hc
    obtain ⟨b, hb, hcb⟩ := hc
    have hb256 := hbs b hb
    simp only [List.mem_cons, List.not_mem_nil, or_false] at hcb
    rcases hcb with h | h
    · subst h
      have := hexDigit_isHex (b / 16) (by omega)
      simpa [isHexChar] using this
    · subst h
      have := hexDigit_isHex (b % 16) (by omega)
      simpa [isHexChar] using this
  · show BlockHeaderExtra.deserializeHR ('0' :: 'x' :: hexEncode e.bytes) = some e
    have hstrip : (('0' :: 'x' :: hexEncode e.bytes).take 2 = ['0', 'x']) := rfl
    simp only [BlockHeaderExtra.deserializeHR, hstrip, if_pos, List.drop_succ_cons,
      List.drop_zero, hlen8, if_pos rfl]
    rw [hexDecode_hexEncode e.bytes hbs]
    simp [hlen, BlockHeaderExtra.new]
  · intro s hs
    simp only [BlockHeaderExtra.deserializeHR]
    rcases hs with hs | ⟨c, hc, hbadc⟩
    · have : ¬ ((if s.take 2 = ['0', 'x'] then s.drop 2 else s).length = 8) := by
        simpa [stripHexLiteral] using hs
      simp only [this, if_false]
    · have hbad : hexDigitVal c = none := by
        cases hv : hexDigitVal c
        · rfl
        · simp [isHexChar, hv] at hbadc
      have hdec : hexDecode (stripHexLiteral s) = none :=
        hexDecode_none_of_bad _ c hc hbad
      by_cases h8 : (stripHexLiteral s).length = 8
      · simp only [stripHexLiteral] at h8 hdec
        simp only [h8, if_pos, hdec]
      · simp only [stripHexLiteral] at h8
        simp only [h8, if_false]

/-- Closed-form witness for C10 at a concrete 4-byte value and concrete
rejected strings. -/
theorem C10_block_header_extra_roundtrip_witness :
    BlockHeaderExtra.deserializeHR
        (BlockHeaderExtra.serializeHR (BlockHeaderExtra.new [16, 255, 0, 66])) =
      some (BlockHeaderExtra.new [16, 255, 0, 66]) ∧
    BlockHeaderExtra.deserializeHR [ '0', 'x', '1', '2', '3' ] = none ∧
    BlockHeaderExtra.deserializeHR [ '0', 'x', 'z', 'z', 'z', 'z', 'z', 'z', 'z', 'z' ] = none := by
  have h := C10_block_header_extra_roundtrip (BlockHeaderExtra.new [16, 255, 0, 66])
    (by decide) (by decide)
  refine ⟨h.2.1, ?_, ?_⟩
  · exact h.2.2 _ (Or.inl (by decide))
  · exact h.2.2 _ (Or.inr ⟨ 'z', by decide, by decide⟩)

/-! ## The sparse (jellyfish) Merkle state tree

Modelled from the spec: the `forkable_jellyfish_merkle` engine and the
`StateTree` facade used by `state/state-tree/src/state_tree_test.rs` are not
part of the sources, so the data model and operations below follow the
spec's §3/§4 description (keys are 256-bit hashes walked nibble-by-nibble,
leaves hold the full key and value, internal nodes have 16 children, empty
subtrees are the fixed placeholder; `get`, `put`/`commit`, `remove`,
proofs, `dump`, change sets and the flush lifecycle), with the observable
behaviour pinned down by the repository's own tests. -/

/-- A 4-bit unit of a key; the branching factor per tree level (spec §3). -/
abbrev Nibble := Fin 16

/-- A key is its 256-bit hash, walked nibble-by-nibble; 64 nibbles in all.
Modelled as a list of nibbles; theorems carry `k.length = 64`. -/
abbrev Key := List Nibble

/-- A value blob: an opaque byte sequence. -/
abbrev Blob := List Nat

/-- Number of nibbles in a 256-bit key. -/
def keyNibbleLen : Nat := 64

/-- The opaque 256-bit collision-resistant hash (spec §1 treats it as an
external primitive).  Modelled as a free term algebra, so distinct
pre-images have distinct hashes by constructor injectivity: the placeholder
constant, value-blob hashes, leaf hashes `hash(key ‖ value-hash)` and
internal hashes of the 16-entry child-hash vector (encoded as a cons
chain). -/
inductive HashValue where
  | placeholder
  | blobHash (b : Blob)
  | leafHash (k : Key) (vh : HashValue)
  | hnil
  | hcons (h : HashValue) (t : HashValue)
  | internalHash (v : HashValue)
deriving DecidableEq, Repr

/-- Encode a list of child hashes as a single hash-algebra term. -/
def hashList : List HashValue → HashValue
  | [] => .hnil
  | h :: t => .hcons h (hashList t)

/-- `SPARSE_MERKLE_PLACEHOLDER_HASH`: the canonical empty-subtree hash. -/
def SPARSE_MERKLE_PLACEHOLDER_HASH : HashValue := .placeholder

/-- Tree node (spec §3 node variants): the empty placeholder, a leaf with
the full key and its blob, or an internal node with 16 children. -/
inductive Node where
  | empty
  | leaf (k : Key) (v : Blob)
  | internal (children : Nibble → Node)

/-- Hash of a node (spec §4.1 hashing rule): leaf hash = hash(key ‖
value-hash); internal hash = hash of the 16-entry child-hash vector with
empty children contributing the placeholder hash; the empty tree hashes to
the placeholder constant. -/
def nodeHash : Node → HashValue
  | .empty => .placeholder
  | .leaf k v => .leafHash k (.blobHash v)
  | .internal cs => .internalHash (hashList (List.ofFn fun i => nodeHash (cs i)))

/-- Engine `get` (spec §4.1): walk nibble-by-nibble from the root; at an
internal node select the child for the current nibble; at a leaf compare
the full key; at the placeholder the key is absent.  `p` is the remaining
nibble path of the queried key `k`. -/
def getGo : Node → List Nibble → Key → Option Blob
  | .empty, _, _ => none
  | .leaf k0 v0, _, k => if k0 = k then some v0 else none
  | .internal _, [], _ => none
  | .internal cs, n :: rest, k => getGo (cs n) rest k

/-- `get` against an in-memory snapshot. -/
def getVal (t : Node) (k : Key) : Option Blob :=
  getGo t k k

/-- Split point of `put` (spec §4.1): when two leaves would collide below
the current depth, internal nodes are extended one level per shared nibble
until the paths diverge.  `p0`/`p` are the remaining nibble paths of the
existing leaf `(k0, v0)` and the new pair `(k, v)`. -/
def mkSubtree : List Nibble → Key → Blob → List Nibble → Key → Blob → Node
  | n0 :: r0, k0, v0, n :: r, k, v =>
    if n0 = n then
      .internal (Function.update (fun _ => .empty) n (mkSubtree r0 k0 v0 r k v))
    else
      .internal
        (Function.update (Function.update (fun _ => .empty) n0 (.leaf k0 v0)) n (.leaf k v))
  | _, _, _, _, k, v => .leaf k v

/-- Engine insert, one key of `put_batch` (spec §4.1): walk down from the
root creating/replacing nodes along the path; replace a leaf with the same
key; split on a leaf with a different key.  `p` is the remaining nibble
path of `k`. -/
def insertGo : Node → List Nibble → Key → Blob → Node
  | .empty, _, k, v => .leaf k v
  | .leaf k0 v0, p, k, v =>
    if k0 = k then .leaf k v
    else mkSubtree (k0.drop (k.length - p.length)) k0 v0 p k v
  | .internal _, [], k, v => .leaf k v
  | .internal cs, n :: rest, k, v =>
    .internal (Function.update cs n (insertGo (cs n) rest k v))

/-- Insert a key/value pair into a snapshot. -/
def insertT (t : Node) (k : Key) (v : Blob) : Node :=
  insertGo t k k v

/-- The non-empty children of an internal node, with their positions. -/
def nonEmptyChildren (cs : Nibble → Node) : List (Nibble × Node) :=
  (List.finRange 16).filterMap fun i =>
    match cs i with
    | .empty => none
    | c => some (i, c)

/-- Path compaction on delete (spec §4.1): an internal node left with no
non-empty child becomes the placeholder, and one whose only remaining
non-empty child is a leaf is replaced by that leaf (a lone internal child
stays in place, since its children's positions depend on their depth). -/
def collapse (cs : Nibble → Node) : Node :=
  match nonEmptyChildren cs with
  | [] => .empty
  | [(_, Node.leaf k v)] => .leaf k v
  | _ => .internal cs

/-- Engine `delete` (spec §4.1): replace the target leaf with the
placeholder and compact on the way back up. -/
def deleteGo : Node → List Nibble → Key → Node
  | .empty, _, _ => .empty
  | .leaf k0 v0, _, k => if k0 = k then .empty else .leaf k0 v0
  | .internal cs, [], _ => .internal cs
  | .internal cs, n :: rest, k => collapse (Function.update cs n (deleteGo (cs n) rest k))

/-- Delete a key from a snapshot. -/
def deleteT (t : Node) (k : Key) : Node :=
  deleteGo t k k

/-- Structural well-formedness of a subtree sitting at path `pi` from the
root: every leaf stores a full 64-nibble key whose path down to it matches
the key's nibbles, and internal nodes sit strictly above the maximal
depth.  Trees built by the engine from the empty root satisfy this. -/
def wfAt : Node → List Nibble → Bool
  | .empty, _ => true
  | .leaf k _, pi => decide (k.length = keyNibbleLen) && decide (k.take pi.length = pi)
  | .internal cs, pi =>
    decide (pi.length < keyNibbleLen) && (List.finRange 16).all fun i => wfAt (cs i) (pi ++ [i])

theorem take_drop_succ {l : List Nibble} {d : Nat} {n : Nibble} {r : List Nibble}
    (h : l.drop d = n :: r) :
    l.take (d + 1) = l.take d ++ [n] ∧ l.drop (d + 1) = r := by
  constructor
  · rw [List.take_succ]
    have hn : l[d]? = some n := by rw [← List.head?_drop, h]; rfl
    rw [hn]; rfl
  · rw [← List.drop_drop, h]; rfl

theorem drop_nonempty {l : List Nibble} {d : Nat} (h : d < l.length) :
    ∃ n r, l.drop d = n :: r := by
  have : (l.drop d).length = l.length - d := List.length_drop ..
  cases hc : l.drop d with
  | nil => rw [hc] at this; simp at this; omega
  | cons n r => exact ⟨n, r, rfl⟩

theorem eq_of_take_drop {k k' : Key} (d : Nat) (ht : k.take d = k'.take d)
    (hd : k.drop d = k'.drop d) : k = k' := by
  rw [← List.take_append_drop d k, ← List.take_append_drop d k', ht, hd]

theorem len_le_of_take_eq {k : Key} {pi : List Nibble} (hlen : k.length = keyNibbleLen)
    (h : k.take pi.length = pi) : pi.length ≤ keyNibbleLen := by
  have := List.length_take pi.length k
  rw [h, hlen] at this
  omega

theorem wfAt_leaf_iff {k : Key} {v : Blob} {pi : List Nibble} :
    wfAt (.leaf k v) pi = true ↔ k.length = keyNibbleLen ∧ k.take pi.length = pi := by
  simp [wfAt]

theorem wfAt_internal_iff {cs : Nibble → Node} {pi : List Nibble} :
    wfAt (.internal cs) pi = true ↔
      pi.length < keyNibbleLen ∧ ∀ i, wfAt (cs i) (pi ++ [i]) = true := by
  simp [wfAt, List.all_eq_true, List.mem_finRange]

theorem getGo_internal_cons (cs : Nibble → Node) (n : Nibble) (r : List Nibble) (k : Key) :
    getGo (.internal cs) (n :: r) k = getGo (cs n) r k := rfl

theorem getGo_mkSubtree_new :
    ∀ (p0 : List Nibble) (k0 : Key) (v0 : Blob) (p : List Nibble) (k : Key) (v : Blob),
      getGo (mkSubtree p0 k0 v0 p k v) p k = some v
  | n0 :: r0, k0, v0, n :: r, k, v => by
    by_cases h : n0 = n
    · rw [mkSubtree, if_pos h, getGo_internal_cons, Function.update_same]
      exact getGo_mkSubtree_new r0 k0 v0 r k v
    · rw [mkSubtree, if_neg h, getGo_internal_cons, Function.update_same]
      simp [getGo]
  | [], _, _, p, k, v => by simp [mkSubtree, getGo]
  | n0 :: r0, _, _, [], k, v => by simp [mkSubtree, getGo]

theorem getGo_insertGo_same :
    ∀ (t : Node) (p : List Nibble) (k : Key) (v : Blob),
      getGo (insertGo t p k v) p k = some v
  | .empty, p, k, v => by
    cases p <;> simp [insertGo, getGo]
  | .leaf k0 v0, p, k, v => by
    by_cases h : k0 = k
    · cases p <;> simp [insertGo, h, getGo]
    · rw [insertGo, if_neg h]
      exact getGo_mkSubtree_new _ k0 v0 p k v
  | .internal cs, [], k, v => by simp [insertGo, getGo]
  | .internal cs, n :: r, k, v => by
    rw [insertGo, getGo_internal_cons, Function.update_same]
    exact getGo_insertGo_same (cs n) r k v

theorem insertGo_self :
    ∀ (t : Node) (p : List Nibble) (k : Key) (v : Blob),
      getGo t p k = some v → insertGo t p k v = t
  | .empty, p, k, v, h => by cases p <;> simp [getGo] at h
  | .leaf k0 v0, p, k, v, h => by
    rw [getGo] at h
    by_cases hk : k0 = k
    · rw [if_pos hk] at h
      cases h
      rw [insertGo, if_pos hk, hk]
    · rw [if_neg hk] at h
      cases h
  | .internal cs, [], k, v, h => by simp [getGo] at h
  | .internal cs, n :: r, k, v, h => by
    rw [getGo] at h
    rw [insertGo, insertGo_self (cs n) r k v h, Function.update_eq_self]

theorem getGo_mkSubtree_other (d : Nat) (k0 : Key) (v0 : Blob) (k : Key) (v : Blob)
    (kq : Key) (hl0 : k0.length = keyNibbleLen) (hl : k.length = keyNibbleLen)
    (hlq : kq.length = keyNibbleLen) (ht0 : k0.take d = k.take d)
    (htq : kq.take d = k.take d) (hne : k0 ≠ k) :
    getGo (mkSubtree (k0.drop d) k0 v0 (k.drop d) k v) (kq.drop d) kq =
      if kq = k0 then some v0 else if kq = k then some v else none := by
  by_cases hd : d < keyNibbleLen
  · obtain ⟨n, r, hkd⟩ := drop_nonempty (l := k) (d := d) (by omega)
    obtain ⟨n0, r0, hk0d⟩ := drop_nonempty (l := k0) (d := d) (by omega)
    obtain ⟨m, rq, hkqd⟩ := drop_nonempty (l := kq) (d := d) (by omega)
    rw [hkd, hk0d, hkqd]
    by_cases hsh : n0 = n
    · rw [mkSubtree, if_pos hsh]
      by_cases hm : m = n
      · rw [getGo_internal_cons, hm, Function.update_same]
        have e0 := take_drop_succ hk0d
        have e1 := take_drop_succ hkd
        have eq := take_drop_succ hkqd
        have hrec := getGo_mkSubtree_other (d + 1) k0 v0 k v kq hl0 hl hlq
          (by rw [e0.1, e1.1, ht0, hsh])
          (by rw [eq.1, e1.1, htq, hm])
          hne
        rw [e0.2, e1.2, eq.2] at hrec
        exact hrec
      · rw [getGo_internal_cons, Function.update_noteq hm]
        have h0 : ¬ kq = k0 := by
          intro h
          rw [h, hk0d] at hkqd
          cases hkqd
          exact hm (hsh)
        have h1 : ¬ kq = k := by
          intro h
          rw [h, hkd] at hkqd
          cases hkqd
          exact hm rfl
        rw [if_neg h0, if_neg h1]
        rfl
    · rw [mkSubtree, if_neg hsh]
      by_cases hm : m = n
      · rw [getGo_internal_cons, hm, Function.update_same]
        have h0 : ¬ kq = k0 := by
          intro h
          rw [h, hk0d] at hkqd
          cases hkqd
          exact hsh (hm ▸ rfl)
        rw [if_neg h0, getGo]
        by_cases h1 : kq = k
        · rw [if_pos h1, if_pos h1.symm]
        · rw [if_neg h1, if_neg (fun h => h1 h.symm)]
      · rw [getGo_internal_cons, Function.update_noteq hm]
        by_cases hm0 : m = n0
        · rw [hm0, Function.update_same, getGo]
          have h1 : ¬ kq = k := by
            intro h
            rw [h, hkd] at hkqd
            cases hkqd
            exact hm rfl
          by_cases h0 : kq = k0
          · rw [if_pos h0, if_pos h0.symm]
          · rw [if_neg h0, if_neg (fun h => h0 h.symm), if_neg h1]
        · rw [Function.update_noteq hm0]
          have h0 : ¬ kq = k0 := by
            intro h
            rw [h, hk0d] at hkqd
            cases hkqd
            exact hm0 rfl
          have h1 : ¬ kq = k := by
            intro h
            rw [h, hkd] at hkqd
            cases hkqd
            exact hm rfl
          rw [if_neg h0, if_neg h1]
          rfl
  · exfalso
    apply hne
    have h0 : k0.take d = k0 := List.take_of_length_le (by omega)
    have h1 : k.take d = k := List.take_of_length_le (by omega)
    rw [h0, h1] at ht0
    exact ht0
termination_by keyNibbleLen - d

theorem getGo_insertGo_other :
    ∀ (t : Node) (pi : List Nibble) (k k' : Key) (v' : Blob),
      wfAt t pi = true →
      k.length = keyNibbleLen → k'.length = keyNibbleLen →
      k.take pi.length = pi → k'.take pi.length = pi →
      k ≠ k' →
      getGo (insertGo t (k'.drop pi.length) k' v') (k.drop pi.length) k
        = getGo t (k.drop pi.length) k
  | .empty, pi, k, k', v', _, _, _, _, _, hne => by
    have hne' : ¬ k' = k := fun h => hne h.symm
    simp [insertGo, getGo, hne']
  | .leaf k0 v0, pi, k, k', v', hwf, hk, hk', htk, htk', hne => by
    obtain ⟨hk0len, hk0take⟩ := wfAt_leaf_iff.mp hwf
    have hne' : ¬ k' = k := fun h => hne h.symm
    by_cases h0 : k0 = k'
    · rw [insertGo, if_pos h0]
      simp only [getGo, h0, if_neg hne']
    · rw [insertGo, if_neg h0]
      have harg : k'.length - (k'.drop pi.length).length = pi.length := by
        have hple : pi.length ≤ keyNibbleLen := len_le_of_take_eq hk' htk'
        rw [List.length_drop, hk']
        omega
      rw [harg]
      have hres := getGo_mkSubtree_other pi.length k0 v0 k' v' k hk0len hk' hk
        (by rw [hk0take, htk']) (by rw [htk, htk']) h0
      rw [hres, if_neg hne]
      by_cases hq : k = k0
      · rw [if_pos hq, getGo, if_pos hq.symm]
      · have hq' : ¬ k0 = k := fun hh => hq hh.symm
        rw [if_neg hq, getGo, if_neg hq']
  | .internal cs, pi, k, k', v', hwf, hk, hk', htk, htk', hne => by
    obtain ⟨hdep, hch⟩ := wfAt_internal_iff.mp hwf
    obtain ⟨n, r, hkd⟩ := drop_nonempty (l := k) (d := pi.length) (by omega)
    obtain ⟨n', r', hkd'⟩ := drop_nonempty (l := k') (d := pi.length) (by omega)
    rw [hkd, hkd', insertGo, getGo_internal_cons, getGo_internal_cons]
    by_cases hm : n = n'
    · subst hm
      rw [Function.update_same]
      have e1 := take_drop_succ hkd
      have e2 := take_drop_succ hkd'
      have hlen1 : (pi ++ [n]).length = pi.length + 1 := by simp
      have hrec := getGo_insertGo_other (cs n) (pi ++ [n]) k k' v' (hch n) hk hk'
        (by rw [hlen1, e1.1, htk]) (by rw [hlen1, e2.1, htk'])
        hne
      rw [hlen1, e1.2, e2.2] at hrec
      exact hrec
    · rw [Function.update_noteq hm]

theorem wfAt_empty (pi : List Nibble) : wfAt .empty pi = true := rfl

theorem wfAt_mkSubtree (pi : List Nibble) (k0 : Key) (v0 : Blob) (k : Key) (v : Blob)
    (hl0 : k0.length = keyNibbleLen) (hl : k.length = keyNibbleLen)
    (ht0 : k0.take pi.length = pi) (ht : k.take pi.length = pi) :
    wfAt (mkSubtree (k0.drop pi.length) k0 v0 (k.drop pi.length) k v) pi = true := by
  by_cases hd : pi.length < keyNibbleLen
  · obtain ⟨n, r, hkd⟩ := drop_nonempty (l := k) (d := pi.length) (by omega)
    obtain ⟨n0, r0, hk0d⟩ := drop_nonempty (l := k0) (d := pi.length) (by omega)
    rw [hkd, hk0d]
    have e0 := take_drop_succ hk0d
    have e1 := take_drop_succ hkd
    by_cases hsh : n0 = n
    · rw [mkSubtree, if_pos hsh]
      refine wfAt_internal_iff.mpr ⟨hd, fun i => ?_⟩
      by_cases hi : i = n
      · subst hi
        rw [Function.update_same]
        have hlen1 : (pi ++ [i]).length = pi.length + 1 := by simp
        have hrec := wfAt_mkSubtree (pi ++ [i]) k0 v0 k v hl0 hl
          (by rw [hlen1, e0.1, ht0, hsh]) (by rw [hlen1, e1.1, ht])
        rw [hlen1, e0.2, e1.2] at hrec
        exact hrec
      · rw [Function.update_noteq hi, wfAt_empty]
    · rw [mkSubtree, if_neg hsh]
      refine wfAt_internal_iff.mpr ⟨hd, fun i => ?_⟩
      by_cases hi : i = n
      · subst hi
        rw [Function.update_same]
        refine wfAt_leaf_iff.mpr ⟨hl, ?_⟩
        have hlen1 : (pi ++ [i]).length = pi.length + 1 := by simp
        rw [hlen1, e1.1, ht]
      · rw [Function.update_noteq hi]
        by_cases hi0 : i = n0
        · subst hi0
          rw [Function.update_same]
          refine wfAt_leaf_iff.mpr ⟨hl0, ?_⟩
          have hlen1 : (pi ++ [i]).length = pi.length + 1 := by simp
          rw [hlen1, e0.1, ht0]
        · rw [Function.update_noteq hi0, wfAt_empty]
  · have h0 : k0.drop pi.length = [] := by
      apply List.drop_eq_nil_of_le
      omega
    have h1 : k.drop pi.length = [] := by
      apply List.drop_eq_nil_of_le
      omega
    have hfb : mkSubtree [] k0 v0 [] k v = .leaf k v := rfl
    rw [h0, h1, hfb]
    exact wfAt_leaf_iff.mpr ⟨hl, ht⟩
termination_by keyNibbleLen - pi.length

theorem wfAt_insertGo :
    ∀ (t : Node) (pi : List Nibble) (k : Key) (v : Blob),
      wfAt t pi = true → k.length = keyNibbleLen → k.take pi.length = pi →
      wfAt (insertGo t (k.drop pi.length) k v) pi = true
  | .empty, pi, k, v, _, hk, htk => by
    cases hp : k.drop pi.length <;>
      · rw [insertGo]
        exact wfAt_leaf_iff.mpr ⟨hk, htk⟩
  | .leaf k0 v0, pi, k, v, hwf, hk, htk => by
    obtain ⟨hk0len, hk0take⟩ := wfAt_leaf_iff.mp hwf
    by_cases h0 : k0 = k
    · rw [insertGo, if_pos h0]
      exact wfAt_leaf_iff.mpr ⟨hk, htk⟩
    · rw [insertGo, if_neg h0]
      have harg : k.length - (k.drop pi.length).length = pi.length := by
        have hple : pi.length ≤ keyNibbleLen := len_le_of_take_eq hk htk
        rw [List.length_drop, hk]
        omega
      rw [harg]
      exact wfAt_mkSubtree pi k0 v0 k v hk0len hk hk0take htk
  | .internal cs, pi, k, v, hwf, hk, htk => by
    obtain ⟨hdep, hch⟩ := wfAt_internal_iff.mp hwf
    obtain ⟨n, r, hkd⟩ := drop_nonempty (l := k) (d := pi.length) (by omega)
    rw [hkd, insertGo]
    refine wfAt_internal_iff.mpr ⟨hdep, fun i => ?_⟩
    by_cases hi : i = n
    · subst hi
      rw [Function.update_same]
      have e1 := take_drop_succ hkd
      have hlen1 : (pi ++ [i]).length = pi.length + 1 := by simp
      have hrec := wfAt_insertGo (cs i) (pi ++ [i]) k v (hch i) hk
        (by rw [hlen1, e1.1, htk])
      rw [hlen1, e1.2] at hrec
      exact hrec
    · rw [Function.update_noteq hi]
      exact hch i

theorem mem_nonEmptyChildren {cs : Nibble → Node} {p : Nibble × Node} :
    p ∈ nonEmptyChildren cs ↔ cs p.1 = p.2 ∧ p.2 ≠ .empty := by
  constructor
  · intro h
    simp only [nonEmptyChildren, List.mem_filterMap, List.mem_finRange, true_and] at h
    obtain ⟨i, hi⟩ := h
    cases hcs : cs i with
    | empty => rw [hcs] at hi; cases hi
    | leaf k v => rw [hcs] at hi; cases hi; exact ⟨hcs, by simp⟩
    | internal cs' => rw [hcs] at hi; cases hi; exact ⟨hcs, by simp⟩
  · intro ⟨h1, h2⟩
    obtain ⟨i, c⟩ := p
    simp only [nonEmptyChildren, List.mem_filterMap, List.mem_finRange, true_and]
    refine ⟨i, ?_⟩
    simp only [] at h1 h2
    rw [h1]
    cases c with
    | empty => exact absurd rfl h2
    | leaf k v => rfl
    | internal cs' => rfl

theorem nonEmptyChildren_nil {cs : Nibble → Node} (h : nonEmptyChildren cs = []) :
    ∀ i, cs i = .empty := by
  intro i
  by_contra hne
  have hm : (i, cs i) ∈ nonEmptyChildren cs := mem_nonEmptyChildren.mpr ⟨rfl, hne⟩
  rw [h] at hm
  cases hm

theorem nonEmptyChildren_singleton {cs : Nibble → Node} {m : Nibble} {c : Node}
    (h : nonEmptyChildren cs = [(m, c)]) :
    cs m = c ∧ ∀ i, i ≠ m → cs i = .empty := by
  have hm : (m, c) ∈ nonEmptyChildren cs := by rw [h]; exact List.mem_singleton_self _
  have h1 := mem_nonEmptyChildren.mp hm
  refine ⟨h1.1, fun i hi => ?_⟩
  by_contra hne
  have hm2 : (i, cs i) ∈ nonEmptyChildren cs := mem_nonEmptyChildren.mpr ⟨rfl, hne⟩
  rw [h] at hm2
  simp only [List.mem_singleton, Prod.mk.injEq] at hm2
  exact hi hm2.1

theorem wfAt_collapse (cs : Nibble → Node) (pi : List Nibble)
    (hdep : pi.length < keyNibbleLen)
    (hch : ∀ i, wfAt (cs i) (pi ++ [i]) = true) :
    wfAt (collapse cs) pi = true := by
  unfold collapse
  rcases hne : nonEmptyChildren cs with _ | ⟨⟨m, c⟩, tl⟩
  · exact wfAt_empty pi
  · cases c with
    | empty => cases tl <;> exact wfAt_internal_iff.mpr ⟨hdep, hch⟩
    | internal cs' => cases tl <;> exact wfAt_internal_iff.mpr ⟨hdep, hch⟩
    | leaf k1 v1 =>
      cases tl with
      | cons x xs => exact wfAt_internal_iff.mpr ⟨hdep, hch⟩
      | nil =>
        obtain ⟨hcm, _⟩ := nonEmptyChildren_singleton hne
        have hwl := hch m
        rw [hcm] at hwl
        obtain ⟨hl1, ht1⟩ := wfAt_leaf_iff.mp hwl
        refine wfAt_leaf_iff.mpr ⟨hl1, ?_⟩
        have hlen1 : (pi ++ [m]).length = pi.length + 1 := by simp
        rw [hlen1] at ht1
        have : k1.take pi.length = (k1.take (pi.length + 1)).take pi.length := by
          rw [List.take_take]
          congr 1
          omega
        rw [this, ht1, List.take_append_of_le_length (le_refl _), List.take_length]

theorem getGo_collapse (cs : Nibble → Node) (pi : List Nibble) (k : Key)
    (hch : ∀ i, wfAt (cs i) (pi ++ [i]) = true)
    (hk : k.length = keyNibbleLen) (htk : k.take pi.length = pi)
    (hdep : pi.length < keyNibbleLen) :
    getGo (collapse cs) (k.drop pi.length) k = getGo (.internal cs) (k.drop pi.length) k := by
  obtain ⟨n, r, hkd⟩ := drop_nonempty (l := k) (d := pi.length) (by omega)
  unfold collapse
  rcases hne : nonEmptyChildren cs with _ | ⟨⟨m, c⟩, tl⟩
  · rw [hkd, getGo_internal_cons, nonEmptyChildren_nil hne n]
    rfl
  · cases c with
    | empty => cases tl <;> rfl
    | internal cs' => cases tl <;> rfl
    | leaf k1 v1 =>
      cases tl with
      | cons x xs => rfl
      | nil =>
        obtain ⟨hcm, hrest⟩ := nonEmptyChildren_singleton hne
        rw [hkd, getGo_internal_cons]
        by_cases hnm : n = m
        · rw [hnm, hcm]
          rfl
        · rw [hrest n hnm]
          have hwl := hch m
          rw [hcm] at hwl
          obtain ⟨hl1, ht1⟩ := wfAt_leaf_iff.mp hwl
          have hk1ne : ¬ k1 = k := by
            intro h
            subst h
            have e1 := take_drop_succ hkd
            have hlen1 : (pi ++ [m]).length = pi.length + 1 := by simp
            rw [hlen1, e1.1, htk] at ht1
            have := List.append_inj_right ht1 rfl
            cases this
            exact hnm rfl
          show getGo (Node.leaf k1 v1) (n :: r) k = none
          rw [getGo, if_neg hk1ne]

theorem wfAt_deleteGo :
    ∀ (t : Node) (pi p : List Nibble) (k : Key),
      wfAt t pi = true → wfAt (deleteGo t p k) pi = true
  | .empty, pi, p, k, hwf => by cases p <;> exact hwf
  | .leaf k0 v0, pi, p, k, hwf => by
    by_cases h0 : k0 = k
    · cases p <;> rw [deleteGo, if_pos h0] <;> exact wfAt_empty pi
    · cases p <;> rw [deleteGo, if_neg h0] <;> exact hwf
  | .internal cs, pi, [], k, hwf => hwf
  | .internal cs, pi, n :: rest, k, hwf => by
    obtain ⟨hdep, hch⟩ := wfAt_internal_iff.mp hwf
    rw [deleteGo]
    apply wfAt_collapse _ _ hdep
    intro i
    by_cases hi : i = n
    · subst hi
      rw [Function.update_same]
      exact wfAt_deleteGo (cs i) (pi ++ [i]) rest k (hch i)
    · rw [Function.update_noteq hi]
      exact hch i

theorem getGo_deleteGo_same :
    ∀ (t : Node) (pi : List Nibble) (k : Key),
      wfAt t pi = true → k.length = keyNibbleLen → k.take pi.length = pi →
      getGo (deleteGo t (k.drop pi.length) k) (k.drop pi.length) k = none
  | .empty, pi, k, _, _, _ => by cases hp : k.drop pi.length <;> rfl
  | .leaf k0 v0, pi, k, hwf, hk, htk => by
    by_cases h0 : k0 = k
    · cases hp : k.drop pi.length <;> rw [deleteGo, if_pos h0] <;> rfl
    · cases hp : k.drop pi.length <;> rw [deleteGo, if_neg h0, getGo, if_neg h0]
  | .internal cs, pi, k, hwf, hk, htk => by
    obtain ⟨hdep, hch⟩ := wfAt_internal_iff.mp hwf
    obtain ⟨n, r, hkd⟩ := drop_nonempty (l := k) (d := pi.length) (by omega)
    have hch' : ∀ i, wfAt ((Function.update cs n (deleteGo (cs n) r k)) i) (pi ++ [i]) = true := by
      intro i
      by_cases hi : i = n
      · subst hi
        rw [Function.update_same]
        exact wfAt_deleteGo (cs i) (pi ++ [i]) r k (hch i)
      · rw [Function.update_noteq hi]
        exact hch i
    rw [hkd, deleteGo]
    have hcol := getGo_collapse (Function.update cs n (deleteGo (cs n) r k)) pi k hch' hk htk hdep
    rw [hkd] at hcol
    rw [hcol, getGo_internal_cons, Function.update_same]
    have e1 := take_drop_succ hkd
    have hlen1 : (pi ++ [n]).length = pi.length + 1 := by simp
    have hrec := getGo_deleteGo_same (cs n) (pi ++ [n]) k (hch n) hk
      (by rw [hlen1, e1.1, htk])
    rw [hlen1, e1.2] at hrec
    exact hrec

theorem getGo_deleteGo_other :
    ∀ (t : Node) (pi : List Nibble) (k k' : Key),
      wfAt t pi = true →
      k.length = keyNibbleLen → k'.length = keyNibbleLen →
      k.take pi.length = pi → k'.take pi.length = pi →
      k ≠ k' →
      getGo (deleteGo t (k'.drop pi.length) k') (k.drop pi.length) k
        = getGo t (k.drop pi.length) k
  | .empty, pi, k, k', _, _, _, _, _, hne => by
    cases hp' : k'.drop pi.length <;> rfl
  | .leaf k0 v0, pi, k, k', hwf, hk, hk', htk, htk', hne => by
    by_cases h0 : k0 = k'
    · have h0k : ¬ k0 = k := by
        rw [h0]
        exact fun h => hne h.symm
      cases hp' : k'.drop pi.length <;>
        rw [deleteGo, if_pos h0] <;> cases hp : k.drop pi.length <;>
          rw [getGo, getGo, if_neg h0k]
    · cases hp' : k'.drop pi.length <;> rw [deleteGo, if_neg h0]
  | .internal cs, pi, k, k', hwf, hk, hk', htk, htk', hne => by
    obtain ⟨hdep, hch⟩ := wfAt_internal_iff.mp hwf
    obtain ⟨n, r, hkd⟩ := drop_nonempty (l := k) (d := pi.length) (by omega)
    obtain ⟨n', r', hkd'⟩ := drop_nonempty (l := k') (d := pi.length) (by omega)
    have hch' : ∀ i,
        wfAt ((Function.update cs n' (deleteGo (cs n') r' k')) i) (pi ++ [i]) = true := by
      intro i
      by_cases hi : i = n'
      · subst hi
        rw [Function.update_same]
        exact wfAt_deleteGo (cs i) (pi ++ [i]) r' k' (hch i)
      · rw [Function.update_noteq hi]
        exact hch i
    rw [hkd', deleteGo]
    have hcol := getGo_collapse (Function.update cs n' (deleteGo (cs n') r' k')) pi k
      hch' hk htk hdep
    rw [hkd] at hcol ⊢
    rw [hcol, getGo_internal_cons, getGo_internal_cons]
    by_cases hm : n = n'
    · subst hm
      rw [Function.update_same]
      have e1 := take_drop_succ hkd
      have e2 := take_drop_succ hkd'
      have hlen1 : (pi ++ [n]).length = pi.length + 1 := by simp
      have hrec := getGo_deleteGo_other (cs n) (pi ++ [n]) k k' (hch n) hk hk'
        (by rw [hlen1, e1.1, htk]) (by rw [hlen1, e2.1, htk']) hne
      rw [hlen1, e1.2, e2.2] at hrec
      exact hrec
    · rw [Function.update_noteq hm]

theorem getVal_insertT_same (t : Node) (k : Key) (v : Blob) :
    getVal (insertT t k v) k = some v :=
  getGo_insertGo_same t k k v

theorem getVal_insertT_other (t : Node) (k k' : Key) (v' : Blob)
    (hwf : wfAt t [] = true) (hk : k.length = keyNibbleLen)
    (hk' : k'.length = keyNibbleLen) (hne : k ≠ k') :
    getVal (insertT t k' v') k = getVal t k := by
  have h := getGo_insertGo_other t [] k k' v' hwf hk hk' (by simp) (by simp) hne
  simpa [getVal, insertT] using h

theorem getVal_deleteT_same (t : Node) (k : Key)
    (hwf : wfAt t [] = true) (hk : k.length = keyNibbleLen) :
    getVal (deleteT t k) k = none := by
  have h := getGo_deleteGo_same t [] k hwf hk (by simp)
  simpa [getVal, deleteT] using h

theorem getVal_deleteT_other (t : Node) (k k' : Key)
    (hwf : wfAt t [] = true) (hk : k.length = keyNibbleLen)
    (hk' : k'.length = keyNibbleLen) (hne : k ≠ k') :
    getVal (deleteT t k') k = getVal t k := by
  have h := getGo_deleteGo_other t [] k k' hwf hk hk' (by simp) (by simp) hne
  simpa [getVal, deleteT] using h

theorem wfAt_insertT (t : Node) (k : Key) (v : Blob)
    (hwf : wfAt t [] = true) (hk : k.length = keyNibbleLen) :
    wfAt (insertT t k v) [] = true := by
  have h := wfAt_insertGo t [] k v hwf hk (by simp)
  simpa [insertT] using h

theorem wfAt_deleteT (t : Node) (k : Key) (hwf : wfAt t [] = true) :
    wfAt (deleteT t k) [] = true :=
  wfAt_deleteGo t [] k k hwf

theorem insertT_self (t : Node) (k : Key) (v : Blob) (h : getVal t k = some v) :
    insertT t k v = t :=
  insertGo_self t k k v h

/-! ## Pending-write cache and the `StateTree` facade -/

/-- Error taxonomy of the tree core (spec §7): `MissingNode` signals an
unresolvable node identity, distinct from a legitimately absent key. -/
inductive TreeError where
  | missingNode
deriving DecidableEq, Repr

/-- A node as persisted in the backing store: children are referenced by
hash (content addressing, spec §9 design note 1).  The empty node is never
persisted — it is the well-known placeholder. -/
inductive FlatNode where
  | leaf (k : Key) (v : Blob)
  | internal (children : Nibble → HashValue)

/-- The backing Node Store contents: a content-addressed association list
from node hash to node (spec §2 component 1). -/
abbrev Store := List (HashValue × FlatNode)

/-- Persisted form of a non-empty in-memory node. -/
def flatten : Node → FlatNode
  | .empty => .leaf [] []
  | .leaf k v => .leaf k v
  | .internal cs => .internal fun i => nodeHash (cs i)

/-- All non-empty nodes of a snapshot (the node itself and, recursively,
its children). -/
def subtreesList : Node → List Node
  | .empty => []
  | .leaf k v => [.leaf k v]
  | .internal cs => .internal cs :: (List.finRange 16).flatMap fun i => subtreesList (cs i)

/-- The store entries describing every non-empty node reachable from a
snapshot. -/
def reachFlat (t : Node) : Store :=
  (subtreesList t).map fun s => (nodeHash s, flatten s)

/-- Does the store contain an entry for this node hash? -/
def storeHasKey (st : Store) (h : HashValue) : Bool :=
  st.any fun e => decide (e.1 = h)

/-- Accumulated change set (spec §3): the batch of newly created nodes, the
stale-node index, and leaf counters.  Following the repository's
`test_put_blob` and `test_state_multi_commit_missing_node`, nodes that were
both created and superseded between two flushes cancel out: the accumulated
`node_batch` holds exactly the nodes of the current committed snapshot that
the last flushed snapshot did not already contain, and the stale index
holds the flushed nodes no longer reachable. -/
structure ChangeSet where
  node_batch : Store
  stale_node_index_batch : List HashValue
  num_new_leaves : Nat
  num_stale_leaves : Nat

/-- Nodes of `cur` not present in (the reachable set of) `fl`. -/
def newNodes (cur fl : Node) : Store :=
  (reachFlat cur).filter fun e => ! storeHasKey (reachFlat fl) e.1

/-- Nodes of `fl` superseded by `cur` (no longer reachable). -/
def staleNodes (cur fl : Node) : Store :=
  (reachFlat fl).filter fun e => ! storeHasKey (reachFlat cur) e.1

/-- Is this store entry a leaf node? -/
def isLeafEntry (e : HashValue × FlatNode) : Bool :=
  match e.2 with
  | .leaf _ _ => true
  | _ => false

/-- The pending-write cache resolution (spec §4.2): the value of the last
staged write for a key, `some (some v)` for a put, `some none` for a
remove tombstone, `none` when the key has no pending write. -/
def lastWrite : List (Key × Option Blob) → Key → Option (Option Blob)
  | [], _ => none
  | e :: rest, k =>
    match lastWrite rest k with
    | some x => some x
    | none => if e.1 = k then some e.2 else none

/-- `commit`'s batch application (spec §4.3): fold every pending write into
the committed snapshot, puts as inserts and removes as deletes. -/
def applyPending (t : Node) (ops : List (Key × Option Blob)) : Node :=
  ops.foldl
    (fun acc e =>
      match e.2 with
      | some v => insertT acc e.1 v
      | none => deleteT acc e.1)
    t

/-- The `StateTree` facade state (spec §4.3): the backing store, the
current committed snapshot, the snapshot as of the last flush (persisted
nodes), and the pending-write cache. -/
structure StateTree where
  store : Store
  tree : Node
  flushedTree : Node
  pending : List (Key × Option Blob)

/-- `StateTree::new(store, None)`: a view rooted at the canonical empty
root. -/
def StateTree.new (store : Store) : StateTree :=
  ⟨store, .empty, .empty, []⟩

/-- `put`: stage a write into the pending cache; no storage I/O. -/
def StateTree.put (s : StateTree) (k : Key) (v : Blob) : StateTree :=
  { s with pending := s.pending ++ [(k, some v)] }

/-- `remove`: stage a tombstone into the pending cache. -/
def StateTree.remove (s : StateTree) (k : Key) : StateTree :=
  { s with pending := s.pending ++ [(k, none)] }

/-- `commit`: apply all pending writes as one batch, advance the tracked
root, clear the pending cache. -/
def StateTree.commit (s : StateTree) : StateTree :=
  { s with tree := applyPending s.tree s.pending, pending := [] }

/-- `root_hash`: the current committed root (reflects commits, not pending
writes). -/
def StateTree.root_hash (s : StateTree) : HashValue :=
  nodeHash s.tree

/-- `get`: consult the pending cache first, then the committed snapshot
(spec §4.2): pending entries shadow committed values. -/
def StateTree.get (s : StateTree) (k : Key) : Option Blob :=
  match lastWrite s.pending k with
  | some ov => ov
  | none => getVal s.tree k

/-- `flush`: hand the accumulated new nodes to the store and mark the
current snapshot as flushed. -/
def StateTree.flush (s : StateTree) : StateTree :=
  { s with store := newNodes s.tree s.flushedTree ++ s.store, flushedTree := s.tree }

/-- `change_sets`: the current root together with the accumulated
(committed but not yet flushed) change set. -/
def StateTree.change_sets (s : StateTree) : HashValue × ChangeSet :=
  (s.root_hash,
   { node_batch := newNodes s.tree s.flushedTree
     stale_node_index_batch := (staleNodes s.tree s.flushedTree).map Prod.fst
     num_new_leaves := (newNodes s.tree s.flushedTree).countP isLeafEntry
     num_stale_leaves := (staleNodes s.tree s.flushedTree).countP isLeafEntry })

/-- Stage a list of puts in order. -/
def stagePuts (s : StateTree) (ops : List (Key × Blob)) : StateTree :=
  ops.foldl (fun acc e => acc.put e.1 e.2) s

theorem wfAt_applyPending :
    ∀ (ops : List (Key × Option Blob)) (t : Node),
      wfAt t [] = true → (∀ e ∈ ops, e.1.length = keyNibbleLen) →
      wfAt (applyPending t ops) [] = true
  | [], t, hwf, _ => hwf
  | e :: rest, t, hwf, hops => by
    rw [applyPending, List.foldl_cons]
    have hstep : wfAt (match e.2 with
        | some v => insertT t e.1 v
        | none => deleteT t e.1) [] = true := by
      cases e.2 with
      | some v => exact wfAt_insertT t e.1 v hwf (hops e (List.mem_cons_self ..))
      | none => exact wfAt_deleteT t e.1 hwf
    exact wfAt_applyPending rest _ hstep (fun x hx => hops x (List.mem_cons_of_mem _ hx))

theorem getVal_applyPending :
    ∀ (ops : List (Key × Option Blob)) (t : Node) (k : Key),
      wfAt t [] = true → (∀ e ∈ ops, e.1.length = keyNibbleLen) →
      k.length = keyNibbleLen →
      getVal (applyPending t ops) k =
        (match lastWrite ops k with
         | some ov => ov
         | none => getVal t k)
  | [], t, k, _, _, _ => rfl
  | e :: rest, t, k, hwf, hops, hk => by
    rw [applyPending, List.foldl_cons]
    have he1 : e.1.length = keyNibbleLen := hops e (List.mem_cons_self ..)
    have hstep : wfAt (match e.2 with
        | some v => insertT t e.1 v
        | none => deleteT t e.1) [] = true := by
      cases e.2 with
      | some v => exact wfAt_insertT t e.1 v hwf he1
      | none => exact wfAt_deleteT t e.1 hwf
    have ih := getVal_applyPending rest
      (match e.2 with
       | some v => insertT t e.1 v
       | none => deleteT t e.1) k hstep
      (fun x hx => hops x (List.mem_cons_of_mem _ hx)) hk
    rw [applyPending] at ih
    rw [ih, lastWrite]
    cases hlw : lastWrite rest k with
    | some x => rfl
    | none =>
      by_cases hek : e.1 = k
      · subst hek
        cases e.2 with
        | some v => simp [getVal_insertT_same]
        | none => simp [getVal_deleteT_same t e.1 hwf he1]
      · have hne : k ≠ e.1 := fun h => hek h.symm
        cases e.2 with
        | some v => simp [hek, getVal_insertT_other t k e.1 v hwf hk he1 hne]
        | none => simp [hek, getVal_deleteT_other t k e.1 hwf hk he1 hne]

/-! ## Merkle proofs (spec §4.1 `get_with_proof`, §4.4 proof verification) -/

/-- Proof verification failures (spec §4.4/§7). -/
inductive ProofError where
  | invalidProof
  | proofLengthMismatch
deriving DecidableEq, Repr

/-- A sparse-Merkle proof: the leaf actually found at the end of the walk
(its key and value hash), if any, plus one group of 15 sibling hashes per
internal node on the path, root first (spec §3 Proof). -/
structure SparseMerkleProof where
  leaf : Option (Key × HashValue)
  siblings : List (List HashValue)
deriving DecidableEq, Repr

/-- The 16-entry child-hash vector of an internal node. -/
def childHashVec (cs : Nibble → Node) : List HashValue :=
  List.ofFn fun i => nodeHash (cs i)

/-- Remove the entry at index `n`, keeping the other 15 siblings in nibble
order. -/
def removeAt (l : List HashValue) (n : Nat) : List HashValue :=
  l.take n ++ l.drop (n + 1)

/-- Re-insert a hash at index `n` among the siblings. -/
def insertAt (l : List HashValue) (n : Nat) (h : HashValue) : List HashValue :=
  l.take n ++ h :: l.drop n

/-- `get_with_proof` walk (spec §4.1): as `get`, but record the sibling
hashes of every internal node crossed and the terminal leaf, if any. -/
def getWithProofGo : Node → List Nibble → Key →
    Option Blob × Option (Key × HashValue) × List (List HashValue)
  | .empty, _, _ => (none, none, [])
  | .leaf k0 v0, _, k =>
    (if k0 = k then some v0 else none, some (k0, .blobHash v0), [])
  | .internal _, [], _ => (none, none, [])
  | .internal cs, n :: rest, k =>
    let r := getWithProofGo (cs n) rest k
    (r.1, r.2.1, removeAt (childHashVec cs) n.val :: r.2.2)

/-- `get_with_proof` against an in-memory snapshot. -/
def getWithProof (t : Node) (k : Key) : Option Blob × SparseMerkleProof :=
  let r := getWithProofGo t k k
  (r.1, ⟨r.2.1, r.2.2⟩)

/-- Recompute the root hash from the claimed leaf hash and the recorded
siblings, walking the key's nibbles (spec §4.4). -/
def foldProofPath : List Nibble → List (List HashValue) → HashValue → HashValue
  | n :: ns, ss :: rest, h =>
    .internalHash (hashList (insertAt ss n.val (foldProofPath ns rest h)))
  | _, _, h => h

/-- `SparseMerkleProof::verify(expected_root, key, value)` (spec §4.4):
derive the leaf hash from the claimed value (or the placeholder / the
recorded other-key leaf for absence), fold the siblings back to a root and
compare; `ProofLengthMismatch` when there are more sibling groups than the
key has nibbles, `InvalidProof` on any mismatch. -/
def SparseMerkleProof.verify (pf : SparseMerkleProof) (root : HashValue) (k : Key)
    (claimed : Option Blob) : Except ProofError Unit :=
  if k.length < pf.siblings.length then .error .proofLengthMismatch
  else
    match claimed, pf.leaf with
    | some v, some lf =>
      if lf.1 = k ∧ lf.2 = .blobHash v then
        if foldProofPath k pf.siblings (.leafHash lf.1 lf.2) = root then .ok ()
        else .error .invalidProof
      else .error .invalidProof
    | some _, none => .error .invalidProof
    | none, some lf =>
      if lf.1 = k then .error .invalidProof
      else if foldProofPath k pf.siblings (.leafHash lf.1 lf.2) = root then .ok ()
      else .error .invalidProof
    | none, none =>
      if foldProofPath k pf.siblings .placeholder = root then .ok ()
      else .error .invalidProof

theorem insertAt_removeAt :
    ∀ (l : List HashValue) (n : Nat) (hn : n < l.length),
      insertAt (removeAt l n) n (l.get ⟨n, hn⟩) = l
  | a :: l', 0, _ => by simp [insertAt, removeAt]
  | a :: l', n + 1, hn => by
    have ih := insertAt_removeAt l' n (by simpa using hn)
    simp only [removeAt, insertAt, List.take_succ_cons, List.drop_succ_cons,
      List.cons_append, List.get_cons_succ] at ih ⊢
    rw [ih]

/-- Hash of the terminal element of a proof path: the recorded leaf's hash,
or the placeholder when the walk ended in an empty subtree. -/
def leafPartHash : Option (Key × HashValue) → HashValue
  | some lf => .leafHash lf.1 lf.2
  | none => .placeholder

theorem getWithProofGo_fst :
    ∀ (t : Node) (p : List Nibble) (k : Key), (getWithProofGo t p k).1 = getGo t p k
  | .empty, p, k => by cases p <;> rfl
  | .leaf k0 v0, p, k => by cases p <;> rfl
  | .internal cs, [], k => rfl
  | .internal cs, n :: rest, k => getWithProofGo_fst (cs n) rest k

theorem getWithProofGo_sibs_le :
    ∀ (t : Node) (p : List Nibble) (k : Key),
      (getWithProofGo t p k).2.2.length ≤ p.length
  | .empty, p, k => by cases p <;> simp [getWithProofGo]
  | .leaf k0 v0, p, k => by cases p <;> simp [getWithProofGo]
  | .internal cs, [], k => by simp [getWithProofGo]
  | .internal cs, n :: rest, k => by
    have ih := getWithProofGo_sibs_le (cs n) rest k
    simp only [getWithProofGo, List.length_cons]
    omega

theorem getWithProofGo_leaf_some :
    ∀ (t : Node) (p : List Nibble) (k : Key) (v : Blob),
      (getWithProofGo t p k).1 = some v →
      (getWithProofGo t p k).2.1 = some (k, .blobHash v)
  | .empty, p, k, v, h => by cases p <;> cases h
  | .leaf k0 v0, p, k, v, h => by
    by_cases h0 : k0 = k
    · cases p <;>
        · simp only [getWithProofGo, if_pos h0] at h ⊢
          cases h
          rw [h0]
    · cases p <;>
        · simp only [getWithProofGo, if_neg h0] at h
          cases h
  | .internal cs, [], k, v, h => by cases h
  | .internal cs, n :: rest, k, v, h =>
    getWithProofGo_leaf_some (cs n) rest k v h

theorem getWithProofGo_leaf_none :
    ∀ (t : Node) (p : List Nibble) (k : Key) (lf : Key × HashValue),
      (getWithProofGo t p k).1 = none →
      (getWithProofGo t p k).2.1 = some lf → ¬ lf.1 = k
  | .empty, p, k, lf, h1, h2 => by cases p <;> cases h2
  | .leaf k0 v0, p, k, lf, h1, h2 => by
    by_cases h0 : k0 = k
    · cases p <;>
        · simp only [getWithProofGo, if_pos h0] at h1
          cases h1
    · cases p <;>
        · simp only [getWithProofGo] at h2
          cases h2
          exact h0
  | .internal cs, [], k, lf, h1, h2 => by cases h2
  | .internal cs, n :: rest, k, lf, h1, h2 =>
    getWithProofGo_leaf_none (cs n) rest k lf h1 h2

theorem childHashVec_get (cs : Nibble → Node) (n : Nibble)
    (h16 : n.val < (childHashVec cs).length) :
    (childHashVec cs).get ⟨n.val, h16⟩ = nodeHash (cs n) := by
  show (List.ofFn fun i => nodeHash (cs i)).get ⟨n.val, h16⟩ = nodeHash (cs n)
  rw [List.get_ofFn]
  congr 1

theorem foldProofPath_roundtrip :
    ∀ (t : Node) (pi : List Nibble) (k : Key),
      wfAt t pi = true → k.length = keyNibbleLen → k.take pi.length = pi →
      foldProofPath (k.drop pi.length) (getWithProofGo t (k.drop pi.length) k).2.2
        (leafPartHash (getWithProofGo t (k.drop pi.length) k).2.1) = nodeHash t
  | .empty, pi, k, _, _, _ => by
    cases hp : k.drop pi.length <;> rfl
  | .leaf k0 v0, pi, k, _, _, _ => by
    cases hp : k.drop pi.length <;>
      · by_cases h0 : k0 = k <;> simp [getWithProofGo, leafPartHash, foldProofPath, nodeHash, h0]
  | .internal cs, pi, k, hwf, hk, htk => by
    obtain ⟨hdep, hch⟩ := wfAt_internal_iff.mp hwf
    obtain ⟨n, r, hkd⟩ := drop_nonempty (l := k) (d := pi.length) (by omega)
    rw [hkd]
    have e1 := take_drop_succ hkd
    have hlen1 : (pi ++ [n]).length = pi.length + 1 := by simp
    have ih := foldProofPath_roundtrip (cs n) (pi ++ [n]) k (hch n) hk
      (by rw [hlen1, e1.1, htk])
    rw [hlen1, e1.2] at ih
    show foldProofPath (n :: r)
      (removeAt (childHashVec cs) n.val :: (getWithProofGo (cs n) r k).2.2)
      (leafPartHash (getWithProofGo (cs n) r k).2.1) = nodeHash (.internal cs)
    rw [foldProofPath, ih]
    have h16 : n.val < (childHashVec cs).length := by simp [childHashVec]
    rw [show nodeHash (cs n) = (childHashVec cs).get ⟨n.val, h16⟩ from
      (childHashVec_get cs n h16).symm]
    rw [insertAt_removeAt]
    rfl

theorem verify_ok_inclusion (t : Node) (k : Key) (v : Blob)
    (hwf : wfAt t [] = true) (hk : k.length = keyNibbleLen)
    (hget : getVal t k = some v) :
    ((getWithProof t k).2).verify (nodeHash t) k (some v) = .ok () := by
  have hfst : (getWithProofGo t k k).1 = some v := by
    rw [getWithProofGo_fst]
    exact hget
  have hlf := getWithProofGo_leaf_some t k k v hfst
  have hsle := getWithProofGo_sibs_le t k k
  have hfold := foldProofPath_roundtrip t [] k hwf hk (by simp)
  simp only [List.length_nil, List.drop_zero, hlf, leafPartHash] at hfold
  simp only [getWithProof, SparseMerkleProof.verify, hlf]
  rw [if_neg (by omega)]
  simp [hfold]

theorem verify_invalid_mutated (t : Node) (k : Key) (v v' : Blob)
    (hget : getVal t k = some v) (hne : ¬ v' = v)
    (hk : k.length = keyNibbleLen) :
    ((getWithProof t k).2).verify (nodeHash t) k (some v') = .error .invalidProof := by
  have hfst : (getWithProofGo t k k).1 = some v := by
    rw [getWithProofGo_fst]
    exact hget
  have hlf := getWithProofGo_leaf_some t k k v hfst
  have hsle := getWithProofGo_sibs_le t k k
  have hvne : ¬ HashValue.blobHash v = HashValue.blobHash v' := by
    intro h
    simp only [HashValue.blobHash.injEq] at h
    exact hne h.symm
  simp only [getWithProof, SparseMerkleProof.verify, hlf]
  rw [if_neg (by omega)]
  simp [hvne]

theorem verify_ok_exclusion (t : Node) (k : Key)
    (hwf : wfAt t [] = true) (hk : k.length = keyNibbleLen)
    (hget : getVal t k = none) :
    ((getWithProof t k).2).verify (nodeHash t) k none = .ok () := by
  have hfst : (getWithProofGo t k k).1 = none := by
    rw [getWithProofGo_fst]
    exact hget
  have hsle := getWithProofGo_sibs_le t k k
  have hfold := foldProofPath_roundtrip t [] k hwf hk (by simp)
  simp only [List.length_nil, List.drop_zero] at hfold
  cases hlf : (getWithProofGo t k k).2.1 with
  | none =>
    rw [hlf, leafPartHash] at hfold
    simp only [getWithProof, SparseMerkleProof.verify, hlf]
    rw [if_neg (by omega)]
    simp [hfold]
  | some lf =>
    have hlfk := getWithProofGo_leaf_none t k k lf hfst hlf
    rw [hlf, leafPartHash] at hfold
    simp only [getWithProof, SparseMerkleProof.verify, hlf]
    rw [if_neg (by omega)]
    simp [hlfk, hfold]

/-- `get_with_proof` on the facade: per the repository's `test_state_proof`
(lines 114-121 assert that a staged-but-uncommitted put is invisible to it)
it answers against the last committed snapshot, without consulting the
pending-write cache. -/
def StateTree.get_with_proof (s : StateTree) (k : Key) : Option Blob × SparseMerkleProof :=
  getWithProof s.tree k

/-- The last value put for a key in a sequence of puts. -/
def lastPut : List (Key × Blob) → Key → Option Blob
  | [], _ => none
  | e :: rest, k =>
    match lastPut rest k with
    | some x => some x
    | none => if e.1 = k then some e.2 else none

theorem lastWrite_append_last (l : List (Key × Option Blob)) (k : Key) (x : Option Blob) :
    lastWrite (l ++ [(k, x)]) k = some x := by
  induction l with
  | nil => simp [lastWrite]
  | cons e rest ih => simp [lastWrite, ih]

theorem lastWrite_map_puts (ops : List (Key × Blob)) (k : Key) :
    lastWrite (ops.map fun e => (e.1, some e.2)) k = Option.map some (lastPut ops k) := by
  induction ops with
  | nil => rfl
  | cons e rest ih =>
    simp only [List.map_cons, lastWrite, lastPut, ih]
    cases lastPut rest k with
    | some x => rfl
    | none =>
      by_cases he : e.1 = k <;> simp [he]

theorem stagePuts_fields :
    ∀ (ops : List (Key × Blob)) (s : StateTree),
      (stagePuts s ops).tree = s.tree ∧
      (stagePuts s ops).store = s.store ∧
      (stagePuts s ops).flushedTree = s.flushedTree ∧
      (stagePuts s ops).pending = s.pending ++ ops.map fun e => (e.1, some e.2)
  | [], s => by simp [stagePuts]
  | e :: rest, s => by
    have ih := stagePuts_fields rest (s.put e.1 e.2)
    rw [stagePuts] at ih ⊢
    rw [List.foldl_cons]
    refine ⟨ih.1, ih.2.1, ih.2.2.1, ?_⟩
    rw [ih.2.2.2]
    simp [StateTree.put]

theorem commit_get (s : StateTree) (k : Key) :
    s.commit.get k = getVal (applyPending s.tree s.pending) k := rfl

/-- A 64-nibble key whose first nibble is 1 (used for concrete witnesses). -/
def wKeyA : Key := 1 :: List.replicate 63 0

/-- A 64-nibble key whose first nibble is 2. -/
def wKeyB : Key := 2 :: List.replicate 63 0

/-- A 64-nibble key sharing its first nibble with `wKeyA` and diverging at
the second. -/
def wKeyC : Key := 1 :: 1 :: List.replicate 62 0

/-- C1: starting from a committed, well-formed state with no pending
writes, staging any sequence of key/value puts and committing makes a
subsequent `get` of each written key return the last value put for that
key; and staging a remove of a present key and committing makes `get` of
that key return absent. -/
theorem C1_put_commit_get_last (s : StateTree) (ops : List (Key × Blob)) (k : Key) (v : Blob)
    (hwf : wfAt s.tree [] = true) (hpend : s.pending = [])
    (hops : ∀ e ∈ ops, e.1.length = keyNibbleLen) (hk : k.length = keyNibbleLen) :
    (lastPut ops k = some v → ((stagePuts s ops).commit).get k = some v) ∧
    (s.get k = some v → ((s.remove k).commit).get k = none) := by
  constructor
  · intro hlast
    have hf := stagePuts_fields ops s
    rw [commit_get, hf.1, hf.2.2.2, hpend, List.nil_append]
    have hops' : ∀ e ∈ ops.map (fun e => (e.1, some e.2)), e.1.length = keyNibbleLen := by
      intro e he
      simp only [List.mem_map] at he
      obtain ⟨x, hx, hex⟩ := he
      rw [← hex]
      exact hops x hx
    rw [getVal_applyPending (ops.map fun e => (e.1, some e.2)) s.tree k hwf hops' hk]
    rw [lastWrite_map_puts, hlast]
    rfl
  · intro hget
    rw [commit_get]
    have hstep : applyPending (s.remove k).tree (s.remove k).pending = deleteT s.tree k := by
      show applyPending s.tree (s.pending ++ [(k, none)]) = deleteT s.tree k
      rw [hpend, List.nil_append]
      rfl
    rw [hstep]
    exact getVal_deleteT_same s.tree k hwf hk

/-- Closed witness for C1 at a concrete three-put sequence (the last put
for `wKeyA` wins) followed by a remove. -/
theorem C1_put_commit_get_last_witness :
    ((stagePuts (StateTree.new []) [(wKeyA, [0]), (wKeyB, [1]), (wKeyA, [2])]).commit).get wKeyA
      = some [2] ∧
    ((((stagePuts (StateTree.new [])
        [(wKeyA, [0]), (wKeyB, [1]), (wKeyA, [2])]).commit).remove wKeyA).commit).get wKeyA
      = none := by
  have h1 := (C1_put_commit_get_last (StateTree.new [])
    [(wKeyA, [0]), (wKeyB, [1]), (wKeyA, [2])] wKeyA [2]
    (by decide) rfl (by decide) (by decide)).1 (by decide)
  refine ⟨h1, ?_⟩
  exact (C1_put_commit_get_last
    ((stagePuts (StateTree.new []) [(wKeyA, [0]), (wKeyB, [1]), (wKeyA, [2])]).commit)
    [] wKeyA [2] (by decide) (by decide) (by decide) (by decide)).2 h1

/-- C2: for a committed, well-formed snapshot with root `R = root_hash`:
every present key yields `(Some value, proof)` from `get_with_proof` with
`verify(R, key, Some value, proof)` succeeding, and any change to the
claimed value makes verification fail with `InvalidProof`; every absent key
yields `(None, proof)` with `verify(R, key, None, proof)` succeeding. -/
theorem C2_get_with_proof_verify (s : StateTree) (k : Key)
    (hwf : wfAt s.tree [] = true) (hk : k.length = keyNibbleLen) :
    (∀ v, getVal s.tree k = some v →
      (s.get_with_proof k).1 = some v ∧
      (s.get_with_proof k).2.verify s.root_hash k (some v) = .ok () ∧
      ∀ v', ¬ v' = v →
        (s.get_with_proof k).2.verify s.root_hash k (some v') = .error .invalidProof) ∧
    (getVal s.tree k = none →
      (s.get_with_proof k).1 = none ∧
      (s.get_with_proof k).2.verify s.root_hash k none = .ok ()) := by
  constructor
  · intro v hv
    refine ⟨?_, verify_ok_inclusion s.tree k v hwf hk hv,
      fun v' hne => verify_invalid_mutated s.tree k v v' hv hne hk⟩
    show (getWithProofGo s.tree k k).1 = some v
    rw [getWithProofGo_fst]
    exact hv
  · intro hv
    refine ⟨?_, verify_ok_exclusion s.tree k hwf hk hv⟩
    show (getWithProofGo s.tree k k).1 = none
    rw [getWithProofGo_fst]
    exact hv

/-- Closed witness for C2: after committing two keys, the present key's
proof verifies for its value, fails with `InvalidProof` for a value whose
first byte was changed, and the absent key's proof verifies for `None`. -/
theorem C2_get_with_proof_verify_witness :
    (((stagePuts (StateTree.new []) [(wKeyA, [0, 0, 0]), (wKeyB, [1, 1, 1])]).commit
        |>.get_with_proof wKeyA).2.verify
      ((stagePuts (StateTree.new []) [(wKeyA, [0, 0, 0]), (wKeyB, [1, 1, 1])]).commit).root_hash
      wKeyA (some [0, 0, 0]) = .ok ()) ∧
    (((stagePuts (StateTree.new []) [(wKeyA, [0, 0, 0]), (wKeyB, [1, 1, 1])]).commit
        |>.get_with_proof wKeyA).2.verify
      ((stagePuts (StateTree.new []) [(wKeyA, [0, 0, 0]), (wKeyB, [1, 1, 1])]).commit).root_hash
      wKeyA (some [9, 0, 0]) = .error .invalidProof) ∧
    (((stagePuts (StateTree.new []) [(wKeyA, [0, 0, 0]), (wKeyB, [1, 1, 1])]).commit
        |>.get_with_proof wKeyC).2.verify
      ((stagePuts (StateTree.new []) [(wKeyA, [0, 0, 0]), (wKeyB, [1, 1, 1])]).commit).root_hash
      wKeyC none = .ok ()) := by
  have hA := (C2_get_with_proof_verify
    ((stagePuts (StateTree.new []) [(wKeyA, [0, 0, 0]), (wKeyB, [1, 1, 1])]).commit)
    wKeyA (by decide) (by decide)).1 [0, 0, 0] (by decide)
  have hC := (C2_get_with_proof_verify
    ((stagePuts (StateTree.new []) [(wKeyA, [0, 0, 0]), (wKeyB, [1, 1, 1])]).commit)
    wKeyC (by decide) (by decide)).2 (by decide)
  exact ⟨hA.2.1, hA.2.2 [9, 0, 0] (by decide), hC.2⟩

/-- C3: committing with no pending writes leaves the tree and its root hash
unchanged; and re-committing a key/value pair identical to one already
committed yields the same root hash as before. -/
theorem C3_commit_idempotent_replay (s : StateTree) (k : Key) (v : Blob)
    (hpend : s.pending = []) :
    (s.commit.root_hash = s.root_hash ∧ s.commit.tree = s.tree) ∧
    (s.get k = some v → ((s.put k v).commit).root_hash = s.root_hash) := by
  constructor
  · constructor
    · show nodeHash (applyPending s.tree s.pending) = nodeHash s.tree
      rw [hpend]
      rfl
    · show applyPending s.tree s.pending = s.tree
      rw [hpend]
      rfl
  · intro hget
    have hget' : getVal s.tree k = some v := by
      simp only [StateTree.get, hpend, lastWrite] at hget
      exact hget
    show nodeHash (applyPending s.tree ((s.put k v).pending)) = nodeHash s.tree
    have hstep : applyPending s.tree ((s.put k v).pending) = insertT s.tree k v := by
      show applyPending s.tree (s.pending ++ [(k, some v)]) = insertT s.tree k v
      rw [hpend, List.nil_append]
      rfl
    rw [hstep, insertT_self s.tree k v hget']

/-- Closed witness for C3: a no-op commit and an identical re-commit on a
concrete one-key state both preserve the root hash. -/
theorem C3_commit_idempotent_replay_witness :
    (((StateTree.new []).put wKeyA [1, 2]).commit.commit.root_hash
      = ((StateTree.new []).put wKeyA [1, 2]).commit.root_hash) ∧
    (((((StateTree.new []).put wKeyA [1, 2]).commit.put wKeyA [1, 2]).commit).root_hash
      = ((StateTree.new []).put wKeyA [1, 2]).commit.root_hash) := by
  have h := C3_commit_idempotent_replay (((StateTree.new []).put wKeyA [1, 2]).commit)
    wKeyA [1, 2] rfl
  exact ⟨h.1.1, h.2 (by decide)⟩

/-- C5 (corrected): before any commit, `get` consults the pending-write
cache first — a staged put is returned and a staged remove reads as absent,
shadowing the committed snapshot; `get_with_proof`, however, does not
consult the pending cache and answers against the last committed
snapshot, unchanged by staged writes. -/
theorem C5_pending_shadows_get_only (s : StateTree) (k : Key) (v : Blob) :
    (s.put k v).get k = some v ∧
    (s.remove k).get k = none ∧
    (s.put k v).get_with_proof k = s.get_with_proof k ∧
    (s.remove k).get_with_proof k = s.get_with_proof k := by
  refine ⟨?_, ?_, rfl, rfl⟩
  · rw [StateTree.get, show (s.put k v).pending = s.pending ++ [(k, some v)] from rfl,
      lastWrite_append_last]
  · rw [StateTree.get, show (s.remove k).pending = s.pending ++ [(k, none)] from rfl,
      lastWrite_append_last]

/-- C5 counterexample: a staged, uncommitted put is visible to `get` but
invisible to `get_with_proof` (which still reports the key absent), so
`get_with_proof` does not consult the pending-write cache — exactly what
the repository's `test_state_proof` (lines 114-118) asserts. -/
theorem C5_counterexample :
    ((StateTree.new []).put wKeyA [0, 0, 0]).get wKeyA = some [0, 0, 0] ∧
    (((StateTree.new []).put wKeyA [0, 0, 0]).get_with_proof wKeyA).1 = none := by
  decide

/-- C7: a `StateTree` constructed with no starting root has the fixed
sparse-Merkle placeholder hash as its root, whatever the backing store
contains, and `get` of any key against it returns absent. -/
theorem C7_empty_tree_placeholder_root (store : Store) (k : Key) :
    (StateTree.new store).root_hash = SPARSE_MERKLE_PLACEHOLDER_HASH ∧
    (StateTree.new store).get k = none :=
  ⟨rfl, rfl⟩

/-! ## `dump`, `dump_iter` and leaf counting -/

/-- Full traversal (spec §4.3 `dump`): every live leaf reachable from a
snapshot, in nibble order. -/
def dumpGo : Node → List (Key × Blob)
  | .empty => []
  | .leaf k v => [(k, v)]
  | .internal cs => (List.finRange 16).flatMap fun i => dumpGo (cs i)

/-- `dump` on the facade: enumerate the current committed snapshot. -/
def StateTree.dump (s : StateTree) : List (Key × Blob) :=
  dumpGo s.tree

/-- The lazy iterator returned by `dump_iter`: the not-yet-yielded pairs. -/
structure StateTreeIter where
  remaining : List (Key × Blob)
deriving DecidableEq, Repr

/-- `dump_iter` on the facade. -/
def StateTree.dump_iter (s : StateTree) : StateTreeIter :=
  ⟨dumpGo s.tree⟩

/-- One iterator step: the next pair and the advanced iterator, or nothing
when exhausted. -/
def StateTreeIter.next (it : StateTreeIter) : Option ((Key × Blob) × StateTreeIter) :=
  match it.remaining with
  | [] => none
  | e :: rest => some (e, ⟨rest⟩)

/-- Number of leaves of a snapshot. -/
def countLeaves : Node → Nat
  | .empty => 0
  | .leaf _ _ => 1
  | .internal cs => ((List.finRange 16).map fun i => countLeaves (cs i)).sum

theorem sum_children_eq (g : Nibble → Nat) :
    ((List.finRange 16).map g).sum = ∑ i : Fin 16, g i := by
  rw [← List.ofFn_eq_map, List.sum_ofFn]

theorem update_comp {α : Type} (f : Nibble → Node) (n : Nibble) (x : Node) (g : Node → α) :
    (fun i => g (Function.update f n x i)) = Function.update (fun j => g (f j)) n (g x) := by
  funext i
  by_cases hi : i = n
  · subst hi
    rw [Function.update_same, Function.update_same]
  · rw [Function.update_noteq hi, Function.update_noteq hi]

theorem countLeaves_update (cs : Nibble → Node) (n : Nibble) (x : Node) :
    countLeaves (.internal (Function.update cs n x)) + countLeaves (cs n)
      = countLeaves (.internal cs) + countLeaves x := by
  rw [countLeaves, countLeaves, sum_children_eq, sum_children_eq]
  have hupd : (fun i => countLeaves (Function.update cs n x i))
      = Function.update (fun j => countLeaves (cs j)) n (countLeaves x) :=
    update_comp cs n x countLeaves
  rw [show (∑ i : Fin 16, countLeaves (Function.update cs n x i))
      = ∑ i : Fin 16, Function.update (fun j => countLeaves (cs j)) n (countLeaves x) i by
    exact Finset.sum_congr rfl fun i _ => congrFun hupd i]
  rw [Finset.sum_update_of_mem (Finset.mem_univ n)]
  rw [← Finset.add_sum_erase Finset.univ (fun j => countLeaves (cs j)) (Finset.mem_univ n)]
  rw [show Finset.univ \ {n} = Finset.univ.erase n from by
    rw [Finset.erase_eq]]
  omega

theorem countLeaves_mkSubtree (pi : List Nibble) (k0 : Key) (v0 : Blob) (k : Key) (v : Blob)
    (hl0 : k0.length = keyNibbleLen) (hl : k.length = keyNibbleLen)
    (ht0 : k0.take pi.length = pi) (ht : k.take pi.length = pi) (hne : ¬ k0 = k) :
    countLeaves (mkSubtree (k0.drop pi.length) k0 v0 (k.drop pi.length) k v) = 2 := by
  by_cases hd : pi.length < keyNibbleLen
  · obtain ⟨n, r, hkd⟩ := drop_nonempty (l := k) (d := pi.length) (by omega)
    obtain ⟨n0, r0, hk0d⟩ := drop_nonempty (l := k0) (d := pi.length) (by omega)
    rw [hkd, hk0d]
    have e0 := take_drop_succ hk0d
    have e1 := take_drop_succ hkd
    by_cases hsh : n0 = n
    · rw [mkSubtree, if_pos hsh]
      have hlen1 : (pi ++ [n]).length = pi.length + 1 := by simp
      have hrec := countLeaves_mkSubtree (pi ++ [n]) k0 v0 k v hl0 hl
        (by rw [hlen1, e0.1, ht0, hsh]) (by rw [hlen1, e1.1, ht]) hne
      rw [hlen1, e0.2, e1.2] at hrec
      have hcu := countLeaves_update (fun _ => .empty) n (mkSubtree r0 k0 v0 r k v)
      have hbase : countLeaves (.internal fun _ => (.empty : Node)) = 0 := by decide
      have hzero : countLeaves Node.empty = 0 := rfl
      rw [hbase, hrec] at hcu
      simp only [hzero] at hcu
      omega
    · rw [mkSubtree, if_neg hsh]
      have hzero : countLeaves Node.empty = 0 := rfl
      have hleaf0 : countLeaves (Node.leaf k0 v0) = 1 := rfl
      have hleaf1 : countLeaves (Node.leaf k v) = 1 := rfl
      have hnn0 : (n : Nibble) ≠ n0 := fun h => hsh h.symm
      have hbase : countLeaves (.internal fun _ => (.empty : Node)) = 0 := by decide
      have hcu1 := countLeaves_update (fun _ => .empty) n0 (Node.leaf k0 v0)
      rw [hbase, hleaf0] at hcu1
      have hcu2 := countLeaves_update
        (Function.update (fun _ => .empty) n0 (Node.leaf k0 v0)) n (Node.leaf k v)
      rw [Function.update_noteq hnn0, hleaf1] at hcu2
      simp only [hzero] at hcu1 hcu2
      omega
  · exfalso
    apply hne
    have h0 : k0.take pi.length = k0 := List.take_of_length_le (by omega)
    have h1 : k.take pi.length = k := List.take_of_length_le (by omega)
    rw [h0] at ht0
    rw [h1] at ht
    rw [ht0, ht]
termination_by keyNibbleLen - pi.length

theorem countLeaves_insertGo :
    ∀ (t : Node) (pi : List Nibble) (k : Key) (v : Blob),
      wfAt t pi = true → k.length = keyNibbleLen → k.take pi.length = pi →
      countLeaves (insertGo t (k.drop pi.length) k v)
        = countLeaves t +
          (match getGo t (k.drop pi.length) k with
           | none => 1
           | some _ => 0)
  | .empty, pi, k, v, _, _, _ => by
    cases hp : k.drop pi.length <;> rfl
  | .leaf k0 v0, pi, k, v, hwf, hk, htk => by
    obtain ⟨hk0len, hk0take⟩ := wfAt_leaf_iff.mp hwf
    by_cases h0 : k0 = k
    · cases hp : k.drop pi.length <;>
        rw [insertGo, if_pos h0, getGo, if_pos h0] <;> rfl
    · rw [insertGo, if_neg h0]
      have harg : k.length - (k.drop pi.length).length = pi.length := by
        have hple : pi.length ≤ keyNibbleLen := len_le_of_take_eq hk htk
        rw [List.length_drop, hk]
        omega
      rw [harg, countLeaves_mkSubtree pi k0 v0 k v hk0len hk hk0take htk h0]
      cases hp : k.drop pi.length <;> rw [getGo, if_neg h0] <;> rfl
  | .internal cs, pi, k, v, hwf, hk, htk => by
    obtain ⟨hdep, hch⟩ := wfAt_internal_iff.mp hwf
    obtain ⟨n, r, hkd⟩ := drop_nonempty (l := k) (d := pi.length) (by omega)
    rw [hkd, insertGo, getGo_internal_cons]
    have e1 := take_drop_succ hkd
    have hlen1 : (pi ++ [n]).length = pi.length + 1 := by simp
    have hrec := countLeaves_insertGo (cs n) (pi ++ [n]) k v (hch n) hk
      (by rw [hlen1, e1.1, htk])
    rw [hlen1, e1.2] at hrec
    have hcu := countLeaves_update cs n (insertGo (cs n) r k v)
    rw [hrec] at hcu
    cases hg : getGo (cs n) r k <;> rw [hg] at hcu <;> omega

theorem take_of_take_append {k : Key} {pi : List Nibble} {i : Nibble}
    (h : k.take (pi.length + 1) = pi ++ [i]) : k.take pi.length = pi := by
  have hstep : k.take pi.length = (k.take (pi.length + 1)).take pi.length := by
    rw [List.take_take]
    congr 1
    omega
  rw [hstep, h, List.take_append_of_le_length (le_refl _), List.take_length]

theorem dumpGo_length : ∀ t : Node, (dumpGo t).length = countLeaves t
  | .empty => rfl
  | .leaf _ _ => rfl
  | .internal cs => by
    rw [dumpGo, countLeaves, List.length_flatMap]
    congr 1
    apply List.map_congr_left
    intro i _
    exact dumpGo_length (cs i)

theorem mem_dumpGo :
    ∀ (t : Node) (pi : List Nibble) (k : Key) (v : Blob),
      wfAt t pi = true → (k, v) ∈ dumpGo t →
      k.length = keyNibbleLen ∧ k.take pi.length = pi ∧
        getGo t (k.drop pi.length) k = some v
  | .empty, _, _, _, _, hm => absurd hm (List.not_mem_nil _)
  | .leaf k0 v0, pi, k, v, hwf, hm => by
    obtain ⟨hk0len, hk0take⟩ := wfAt_leaf_iff.mp hwf
    simp only [dumpGo, List.mem_singleton, Prod.mk.injEq] at hm
    obtain ⟨hk, hv⟩ := hm
    subst hk
    subst hv
    refine ⟨hk0len, hk0take, ?_⟩
    cases hp : k.drop pi.length <;> rw [getGo, if_pos rfl]
  | .internal cs, pi, k, v, hwf, hm => by
    obtain ⟨hdep, hch⟩ := wfAt_internal_iff.mp hwf
    simp only [dumpGo, List.mem_flatMap, List.mem_finRange, true_and] at hm
    obtain ⟨i, hi⟩ := hm
    have ih := mem_dumpGo (cs i) (pi ++ [i]) k v (hch i) hi
    have hlen1 : (pi ++ [i]).length = pi.length + 1 := by simp
    rw [hlen1] at ih
    obtain ⟨hklen, hktake, hkget⟩ := ih
    have htake : k.take pi.length = pi := take_of_take_append hktake
    obtain ⟨n, r, hkd⟩ := drop_nonempty (l := k) (d := pi.length) (by omega)
    have e1 := take_drop_succ hkd
    have hni : n = i := by
      rw [e1.1, htake] at hktake
      have := List.append_inj_right hktake rfl
      cases this
      rfl
    refine ⟨hklen, htake, ?_⟩
    rw [hkd, getGo_internal_cons, hni, ← e1.2]
    exact hkget

theorem getGo_mem_dumpGo :
    ∀ (t : Node) (pi : List Nibble) (k : Key) (v : Blob),
      wfAt t pi = true → k.length = keyNibbleLen → k.take pi.length = pi →
      getGo t (k.drop pi.length) k = some v → (k, v) ∈ dumpGo t
  | .empty, pi, k, v, _, _, _, hg => by
    cases hp : k.drop pi.length <;> rw [hp] at hg <;> cases hg
  | .leaf k0 v0, pi, k, v, hwf, hk, htk, hg => by
    cases hp : k.drop pi.length <;> rw [hp, getGo] at hg <;>
      · by_cases h0 : k0 = k
        · rw [if_pos h0] at hg
          cases hg
          subst h0
          simp [dumpGo]
        · rw [if_neg h0] at hg
          cases hg
  | .internal cs, pi, k, v, hwf, hk, htk, hg => by
    obtain ⟨hdep, hch⟩ := wfAt_internal_iff.mp hwf
    obtain ⟨n, r, hkd⟩ := drop_nonempty (l := k) (d := pi.length) (by omega)
    rw [hkd, getGo_internal_cons] at hg
    have e1 := take_drop_succ hkd
    have hlen1 : (pi ++ [n]).length = pi.length + 1 := by simp
    have ih := getGo_mem_dumpGo (cs n) (pi ++ [n]) k v (hch n) hk
      (by rw [hlen1, e1.1, htk]) (by rw [hlen1, e1.2]; exact hg)
    simp only [dumpGo, List.mem_flatMap, List.mem_finRange, true_and]
    exact ⟨n, ih⟩

theorem lastPut_mem :
    ∀ (ops : List (Key × Blob)) (k : Key) (v : Blob),
      lastPut ops k = some v → (k, v) ∈ ops
  | [], _, _, h => by cases h
  | e :: rest, k, v, h => by
    rw [lastPut] at h
    cases hlp : lastPut rest k with
    | some x =>
      rw [hlp] at h
      cases h
      exact List.mem_cons_of_mem _ (lastPut_mem rest k v hlp)
    | none =>
      rw [hlp] at h
      by_cases he : e.1 = k
      · rw [if_pos he] at h
        cases h
        have : e = (k, e.2) := by
          rw [← he]
        rw [this] at *
        exact List.mem_cons_self ..
      · rw [if_neg he] at h
        cases h

theorem lastPut_of_not_mem :
    ∀ (ops : List (Key × Blob)) (k : Key),
      k ∉ ops.map Prod.fst → lastPut ops k = none
  | [], _, _ => rfl
  | e :: rest, k, h => by
    simp only [List.map_cons, List.mem_cons, not_or] at h
    rw [lastPut, lastPut_of_not_mem rest k h.2, if_neg (fun hh => h.1 hh.symm)]

theorem lastPut_nodup_mem :
    ∀ (ops : List (Key × Blob)) (k : Key) (v : Blob),
      (ops.map Prod.fst).Nodup → (k, v) ∈ ops → lastPut ops k = some v
  | [], _, _, _, hm => absurd hm (List.not_mem_nil _)
  | e :: rest, k, v, hnd, hm => by
    rw [List.map_cons, List.nodup_cons] at hnd
    rw [lastPut]
    rcases List.mem_cons.mp hm with he | hr
    · subst he
      rw [lastPut_of_not_mem rest k hnd.1, if_pos rfl]
    · rw [lastPut_nodup_mem rest k v hnd.2 hr]

theorem countLeaves_insertT_fresh (t : Node) (k : Key) (v : Blob)
    (hwf : wfAt t [] = true) (hk : k.length = keyNibbleLen)
    (hfresh : getVal t k = none) :
    countLeaves (insertT t k v) = countLeaves t + 1 := by
  have h := countLeaves_insertGo t [] k v hwf hk (by simp)
  simp only [List.length_nil, List.drop_zero] at h
  rw [show getGo t k k = getVal t k from rfl, hfresh] at h
  exact h

theorem countLeaves_insertT_present (t : Node) (k : Key) (v v0 : Blob)
    (hwf : wfAt t [] = true) (hk : k.length = keyNibbleLen)
    (hpresent : getVal t k = some v0) :
    countLeaves (insertT t k v) = countLeaves t := by
  have h := countLeaves_insertGo t [] k v hwf hk (by simp)
  simp only [List.length_nil, List.drop_zero] at h
  rw [show getGo t k k = getVal t k from rfl, hpresent] at h
  exact h

theorem countLeaves_applyPuts :
    ∀ (ops : List (Key × Blob)) (t : Node),
      wfAt t [] = true → (∀ e ∈ ops, e.1.length = keyNibbleLen) →
      (∀ e ∈ ops, getVal t e.1 = none) → (ops.map Prod.fst).Nodup →
      countLeaves (applyPending t (ops.map fun e => (e.1, some e.2)))
        = countLeaves t + ops.length
  | [], _, _, _, _, _ => by simp [applyPending]
  | e :: rest, t, hwf, hops, hfresh, hnd => by
    have he1 := hops e (List.mem_cons_self ..)
    rw [List.map_cons] at hnd ⊢
    rw [List.nodup_cons] at hnd
    have hcount : countLeaves (insertT t e.1 e.2) = countLeaves t + 1 :=
      countLeaves_insertT_fresh t e.1 e.2 hwf he1 (hfresh e (List.mem_cons_self ..))
    have hwf' : wfAt (insertT t e.1 e.2) [] = true := wfAt_insertT t e.1 e.2 hwf he1
    have hfresh' : ∀ x ∈ rest, getVal (insertT t e.1 e.2) x.1 = none := by
      intro x hx
      have hxk := hops x (List.mem_cons_of_mem _ hx)
      have hne : x.1 ≠ e.1 := by
        intro hh
        apply hnd.1
        rw [← hh]
        exact List.mem_map_of_mem Prod.fst hx
      rw [getVal_insertT_other t x.1 e.1 e.2 hwf hxk he1 hne]
      exact hfresh x (List.mem_cons_of_mem _ hx)
    have ih := countLeaves_applyPuts rest (insertT t e.1 e.2) hwf'
      (fun x hx => hops x (List.mem_cons_of_mem _ hx)) hfresh' hnd.2
    rw [applyPending, List.foldl_cons]
    rw [applyPending] at ih
    show countLeaves (List.foldl
        (fun acc x =>
          match x.2 with
          | some v => insertT acc x.1 v
          | none => deleteT acc x.1)
        (insertT t e.1 e.2) (rest.map fun x => (x.1, some x.2)))
      = countLeaves t + (e :: rest).length
    rw [ih, hcount, List.length_cons]
    omega

/-- C8: after committing K distinct keys on a fresh tree, `dump` returns
exactly K entries matching the put values, with no duplicate keys and no
omissions; `dump_iter` yields exactly those pairs, and an exhausted
iterator keeps yielding nothing. -/
theorem C8_dump_exact (store : Store) (ops : List (Key × Blob))
    (hnd : (ops.map Prod.fst).Nodup)
    (hops : ∀ e ∈ ops, e.1.length = keyNibbleLen) :
    (((stagePuts (StateTree.new store) ops).commit).dump).length = ops.length ∧
    (∀ e ∈ ops, e ∈ ((stagePuts (StateTree.new store) ops).commit).dump) ∧
    (∀ e ∈ ((stagePuts (StateTree.new store) ops).commit).dump, e ∈ ops) ∧
    ((((stagePuts (StateTree.new store) ops).commit).dump).map Prod.fst).Nodup ∧
    ((stagePuts (StateTree.new store) ops).commit).dump_iter.remaining
      = ((stagePuts (StateTree.new store) ops).commit).dump ∧
    (∀ it : StateTreeIter, it.remaining = [] → it.next = none) := by
  have hf := stagePuts_fields ops (StateTree.new store)
  have htree : ((stagePuts (StateTree.new store) ops).commit).tree
      = applyPending .empty (ops.map fun e => (e.1, some e.2)) := by
    show applyPending (stagePuts (StateTree.new store) ops).tree
      (stagePuts (StateTree.new store) ops).pending = _
    rw [hf.1, hf.2.2.2]
    rfl
  have hops' : ∀ e ∈ ops.map (fun e => (e.1, some e.2)), e.1.length = keyNibbleLen := by
    intro e he
    simp only [List.mem_map] at he
    obtain ⟨x, hx, hex⟩ := he
    rw [← hex]
    exact hops x hx
  have hwfT : wfAt (applyPending .empty (ops.map fun e => (e.1, some e.2))) [] = true :=
    wfAt_applyPending _ _ rfl hops'
  have hgetT : ∀ k : Key, k.length = keyNibbleLen →
      getVal (applyPending .empty (ops.map fun e => (e.1, some e.2))) k
        = (match lastPut ops k with
           | some v => some v
           | none => none) := by
    intro k hk
    rw [getVal_applyPending (ops.map fun e => (e.1, some e.2)) Node.empty k rfl hops' hk,
      lastWrite_map_puts]
    cases lastPut ops k <;> rfl
  have hlen : (((stagePuts (StateTree.new store) ops).commit).dump).length = ops.length := by
    show (dumpGo ((stagePuts (StateTree.new store) ops).commit).tree).length = ops.length
    rw [htree, dumpGo_length]
    have hc := countLeaves_applyPuts ops .empty rfl hops (fun _ _ => rfl) hnd
    rw [hc, show countLeaves Node.empty = 0 from rfl]
    omega
  have hmem1 : ∀ e ∈ ops, e ∈ ((stagePuts (StateTree.new store) ops).commit).dump := by
    intro e he
    have hek := hops e he
    have hget : getVal (applyPending .empty (ops.map fun x => (x.1, some x.2))) e.1
        = some e.2 := by
      rw [hgetT e.1 hek, lastPut_nodup_mem ops e.1 e.2 hnd he]
    show e ∈ dumpGo ((stagePuts (StateTree.new store) ops).commit).tree
    rw [htree]
    have hm := getGo_mem_dumpGo (applyPending .empty (ops.map fun x => (x.1, some x.2)))
      [] e.1 e.2 hwfT hek rfl (by exact hget)
    exact hm
  have hmem2 : ∀ e ∈ ((stagePuts (StateTree.new store) ops).commit).dump, e ∈ ops := by
    intro e he
    rw [show ((stagePuts (StateTree.new store) ops).commit).dump
      = dumpGo (applyPending .empty (ops.map fun x => (x.1, some x.2))) from by
        rw [← htree]; rfl] at he
    have hm := mem_dumpGo (applyPending .empty (ops.map fun x => (x.1, some x.2)))
      [] e.1 e.2 hwfT (by exact he)
    obtain ⟨hek, _, hget⟩ := hm
    have hget' : getVal (applyPending .empty (ops.map fun x => (x.1, some x.2))) e.1
        = some e.2 := hget
    rw [hgetT e.1 hek] at hget'
    cases hlp : lastPut ops e.1 with
    | none => rw [hlp] at hget'; cases hget'
    | some x =>
      rw [hlp] at hget'
      have hx : x = e.2 := Option.some.inj hget'
      rw [hx] at hlp
      exact lastPut_mem ops e.1 e.2 hlp
  refine ⟨hlen, hmem1, hmem2, ?_, rfl, ?_⟩
  · have hsub : ops.map Prod.fst ⊆ (((stagePuts (StateTree.new store) ops).commit).dump).map
        Prod.fst := by
      intro k hk
      simp only [List.mem_map] at hk ⊢
      obtain ⟨e, he, hek⟩ := hk
      exact ⟨e, hmem1 e he, hek⟩
    have hsp := List.subperm_of_subset hnd hsub
    have hperm := List.Subperm.perm_of_length_le hsp (by
      rw [List.length_map, List.length_map, hlen])
    exact (List.Perm.nodup_iff hperm).mp hnd
  · intro it hit
    rw [StateTreeIter.next, hit]

/-- Closed witness for C8: two distinct keys committed, `dump` has exactly
two entries including the put pairs, and the iterator is stable when
exhausted. -/
theorem C8_dump_exact_witness :
    (((stagePuts (StateTree.new []) [(wKeyA, [1, 2]), (wKeyB, [3, 4])]).commit).dump).length
      = 2 ∧
    (wKeyA, [1, 2]) ∈ ((stagePuts (StateTree.new []) [(wKeyA, [1, 2]), (wKeyB, [3, 4])]).commit).dump ∧
    (StateTreeIter.mk []).next = none := by
  have h := C8_dump_exact [] [(wKeyA, [1, 2]), (wKeyB, [3, 4])] (by decide) (by decide)
  exact ⟨h.1, h.2.1 (wKeyA, [1, 2]) (by decide), h.2.2.2.2.2 ⟨[]⟩ rfl⟩

/-! ## Change-set accounting -/

theorem newNodes_empty (cur : Node) : newNodes cur .empty = reachFlat cur := by
  rw [newNodes]
  apply List.filter_eq_self.mpr
  intro e _
  rfl

theorem staleNodes_empty (cur : Node) : staleNodes cur .empty = [] := rfl

theorem countP_flatMap {α β : Type} (p : β → Bool) (g : α → List β) :
    ∀ l : List α, ((l.flatMap g).countP p) = (l.map fun a => (g a).countP p).sum
  | [] => rfl
  | a :: l => by
    rw [List.flatMap_cons, List.countP_append, List.map_cons, List.sum_cons,
      countP_flatMap p g l]

theorem countP_reachFlat : ∀ t : Node, (reachFlat t).countP isLeafEntry = countLeaves t
  | .empty => rfl
  | .leaf _ _ => rfl
  | .internal cs => by
    rw [reachFlat, subtreesList, List.map_cons, List.countP_cons_of_neg _ _ (by
      show ¬ isLeafEntry (nodeHash (.internal cs), flatten (.internal cs)) = true
      rw [flatten]
      intro h
      cases h)]
    rw [List.map_flatMap, countP_flatMap, countLeaves]
    congr 1
    apply List.map_congr_left
    intro i _
    exact countP_reachFlat (cs i)

/-- Number of leaves of the previous snapshot superseded by advancing to
the current snapshot. -/
def supersededLeaves (prev cur : Node) : Nat :=
  (staleNodes cur prev).countP isLeafEntry

theorem num_new_leaves_eq_countLeaves (s : StateTree) (hfl : s.flushedTree = .empty) :
    (s.change_sets).2.num_new_leaves = countLeaves s.tree := by
  show (newNodes s.tree s.flushedTree).countP isLeafEntry = countLeaves s.tree
  rw [hfl, newNodes_empty, countP_reachFlat]

theorem num_stale_leaves_zero (s : StateTree) (hfl : s.flushedTree = .empty) :
    (s.change_sets).2.num_stale_leaves = 0 := by
  show (staleNodes s.tree s.flushedTree).countP isLeafEntry = 0
  rw [hfl, staleNodes_empty]
  rfl

/-- C6 (amended): with nothing flushed yet, committing N never-before-seen
keys under distinct top-level nibbles yields an accumulated
`num_new_leaves == N`; and re-inserting an already-present key with a new
value leaves both `num_new_leaves` and `num_stale_leaves` of the
accumulated change set unchanged — the superseded leaf was never flushed,
so it cancels out of the accumulation instead of being counted stale. -/
theorem C6_change_set_accounting (store : Store) (ops : List (Key × Blob)) (s : StateTree)
    (k : Key) (v' v0 : Blob)
    (htop : (ops.map fun e => e.1.head?).Nodup)
    (hops : ∀ e ∈ ops, e.1.length = keyNibbleLen)
    (hwf : wfAt s.tree [] = true) (hpend : s.pending = [])
    (hfl : s.flushedTree = .empty)
    (hk : k.length = keyNibbleLen) (hpresent : getVal s.tree k = some v0) :
    (((stagePuts (StateTree.new store) ops).commit).change_sets).2.num_new_leaves
      = ops.length ∧
    ((((s.put k v').commit).change_sets).2.num_new_leaves
      = (s.change_sets).2.num_new_leaves ∧
     (((s.put k v').commit).change_sets).2.num_stale_leaves
      = (s.change_sets).2.num_stale_leaves) := by
  have hnd : (ops.map Prod.fst).Nodup := by
    have h1 : (ops.map fun e => e.1.head?) = (ops.map Prod.fst).map List.head? := by
      rw [List.map_map]
      rfl
    rw [h1] at htop
    exact htop.of_map List.head?
  constructor
  · have hf := stagePuts_fields ops (StateTree.new store)
    have hfl' : ((stagePuts (StateTree.new store) ops).commit).flushedTree = .empty := by
      show (stagePuts (StateTree.new store) ops).flushedTree = .empty
      rw [hf.2.2.1]
      rfl
    rw [num_new_leaves_eq_countLeaves _ hfl']
    have htree : ((stagePuts (StateTree.new store) ops).commit).tree
        = applyPending .empty (ops.map fun e => (e.1, some e.2)) := by
      show applyPending (stagePuts (StateTree.new store) ops).tree
        (stagePuts (StateTree.new store) ops).pending = _
      rw [hf.1, hf.2.2.2]
      rfl
    rw [htree, countLeaves_applyPuts ops .empty rfl hops (fun _ _ => rfl) hnd,
      show countLeaves Node.empty = 0 from rfl]
    omega
  · have hfl2 : (((s.put k v').commit)).flushedTree = .empty := hfl
    have htree2 : (((s.put k v').commit)).tree = insertT s.tree k v' := by
      show applyPending s.tree (s.pending ++ [(k, some v')]) = insertT s.tree k v'
      rw [hpend, List.nil_append]
      rfl
    constructor
    · rw [num_new_leaves_eq_countLeaves _ hfl2, num_new_leaves_eq_countLeaves s hfl, htree2]
      exact countLeaves_insertT_present s.tree k v' v0 hwf hk hpresent
    · rw [num_stale_leaves_zero _ hfl2, num_stale_leaves_zero s hfl]

/-- C6 counterexample: committing a new value for an already committed key
supersedes one leaf, yet the accumulated change set reports
`num_stale_leaves = 0` before and after (the superseded leaf was unflushed
and cancels out), so `num_stale_leaves` is not incremented by the number of
superseded leaves. -/
theorem C6_counterexample :
    supersededLeaves
        ((stagePuts (StateTree.new []) [(wKeyA, [0]), (wKeyB, [1])]).commit).tree
        ((((stagePuts (StateTree.new []) [(wKeyA, [0]), (wKeyB, [1])]).commit).put
            wKeyA [9]).commit).tree = 1 ∧
    ((((stagePuts (StateTree.new []) [(wKeyA, [0]), (wKeyB, [1])]).commit).change_sets).2).num_stale_leaves
      = 0 ∧
    ((((((stagePuts (StateTree.new []) [(wKeyA, [0]), (wKeyB, [1])]).commit).put
        wKeyA [9]).commit).change_sets).2).num_stale_leaves = 0 := by
  decide

/-- Closed witness for C6 at a concrete two-key state with a re-insert. -/
theorem C6_change_set_accounting_witness :
    (((stagePuts (StateTree.new []) [(wKeyA, [0]), (wKeyB, [1])]).commit).change_sets).2.num_new_leaves
      = 2 ∧
    ((((((stagePuts (StateTree.new []) [(wKeyA, [0]), (wKeyB, [1])]).commit).put
        wKeyA [9]).commit).change_sets).2).num_new_leaves
      = (((stagePuts (StateTree.new []) [(wKeyA, [0]), (wKeyB, [1])]).commit).change_sets).2.num_new_leaves := by
  have h := C6_change_set_accounting [] [(wKeyA, [0]), (wKeyB, [1])]
    ((stagePuts (StateTree.new []) [(wKeyA, [0]), (wKeyB, [1])]).commit)
    wKeyA [9] [0] (by decide) (by decide) (by decide) (by decide) rfl
    (by decide) (by decide)
  exact ⟨h.1, h.2.1⟩

/-! ## Resolution through the Node Store (views reconstructed from a root) -/

/-- Content-addressed lookup in the Node Store. -/
def lookupStore : Store → HashValue → Option FlatNode
  | [], _ => none
  | e :: rest, h => if e.1 = h then some e.2 else lookupStore rest h

/-- Engine `get` against a root node id resolved through the Node Store
(spec §4.1): each step dereferences a node hash; an unresolvable hash is
the hard error `MissingNode`, not "absent".  The walk consumes one nibble
of the key per internal node, so it is bounded by the key width. -/
def storeGetGo (store : Store) (k : Key) : List Nibble → HashValue → Except TreeError (Option Blob)
  | [], h =>
    if h = SPARSE_MERKLE_PLACEHOLDER_HASH then .ok none
    else
      match lookupStore store h with
      | none => .error .missingNode
      | some (.leaf k0 v0) => .ok (if k0 = k then some v0 else none)
      | some (.internal _) => .ok none
  | n :: rest, h =>
    if h = SPARSE_MERKLE_PLACEHOLDER_HASH then .ok none
    else
      match lookupStore store h with
      | none => .error .missingNode
      | some (.leaf k0 v0) => .ok (if k0 = k then some v0 else none)
      | some (.internal cs) => storeGetGo store k rest (cs n)

/-- `get` on a view constructed with `StateTree::new(store, Some(root))`:
resolve the root hash through the store and walk the key. -/
def stateGetFromRoot (store : Store) (root : HashValue) (k : Key) :
    Except TreeError (Option Blob) :=
  storeGetGo store k k root

theorem hashList_inj : ∀ l1 l2 : List HashValue, hashList l1 = hashList l2 → l1 = l2
  | [], [], _ => rfl
  | [], _ :: _, h => by cases h
  | _ :: _, [], h => by cases h
  | a :: l1, b :: l2, h => by
    rw [hashList, hashList] at h
    injection h with h1 h2
    rw [h1, hashList_inj l1 l2 h2]

theorem nodeHash_inj : ∀ t1 t2 : Node, nodeHash t1 = nodeHash t2 → t1 = t2
  | .empty, .empty, _ => rfl
  | .empty, .leaf _ _, h => by cases h
  | .empty, .internal _, h => by cases h
  | .leaf _ _, .empty, h => by cases h
  | .leaf k1 v1, .leaf k2 v2, h => by
    rw [nodeHash, nodeHash] at h
    injection h with h1 h2
    injection h2 with h3
    rw [h1, h3]
  | .leaf _ _, .internal _, h => by cases h
  | .internal _, .empty, h => by cases h
  | .internal _, .leaf _ _, h => by cases h
  | .internal cs1, .internal cs2, h => by
    rw [nodeHash, nodeHash] at h
    injection h with h1
    have h2 := hashList_inj _ _ h1
    have h3 : (fun i => nodeHash (cs1 i)) = fun i => nodeHash (cs2 i) := by
      rwa [List.ofFn_inj] at h2
    have h4 : cs1 = cs2 := by
      funext i
      exact nodeHash_inj (cs1 i) (cs2 i) (congrFun h3 i)
    rw [h4]

/-- A store is consistent when every entry is the persisted image of a
non-empty node under its hash (content addressing). -/
def StoreOK (store : Store) : Prop :=
  ∀ e ∈ store, ∃ s : Node, ¬ s = .empty ∧ e.1 = nodeHash s ∧ e.2 = flatten s

theorem storeOK_reachFlat (t : Node) : StoreOK (reachFlat t) := by
  intro e he
  simp only [reachFlat, List.mem_map] at he
  obtain ⟨s, hs, hes⟩ := he
  refine ⟨s, ?_, by rw [← hes], by rw [← hes]⟩
  intro hemp
  subst hemp
  clear hes
  induction t with
  | empty => cases hs
  | leaf k v => simp [subtreesList] at hs
  | internal cs ih =>
    simp only [subtreesList, List.mem_cons, List.mem_flatMap, List.mem_finRange,
      true_and] at hs
    rcases hs with h | ⟨i, hi⟩
    · cases h
    · exact ih i hi

theorem lookupStore_of_mem (store : Store) (hok : StoreOK store) (s : Node)
    (hmem : (nodeHash s, flatten s) ∈ store) :
    lookupStore store (nodeHash s) = some (flatten s) := by
  induction store with
  | nil => cases hmem
  | cons e rest ih =>
    rw [lookupStore]
    by_cases he : e.1 = nodeHash s
    · rw [if_pos he]
      obtain ⟨s', _, he1, he2⟩ := hok e (List.mem_cons_self ..)
      rw [he1] at he
      have hss : s' = s := nodeHash_inj s' s he
      rw [he2, hss]
    · rw [if_neg he]
      rcases List.mem_cons.mp hmem with hh | hr
      · exfalso
        apply he
        rw [← hh]
      · exact ih (fun x hx => hok x (List.mem_cons_of_mem _ hx)) hr

theorem lookupStore_none (store : Store) (h : HashValue)
    (hno : ∀ e ∈ store, ¬ e.1 = h) : lookupStore store h = none := by
  induction store with
  | nil => rfl
  | cons e rest ih =>
    rw [lookupStore, if_neg (hno e (List.mem_cons_self ..))]
    exact ih (fun x hx => hno x (List.mem_cons_of_mem _ hx))

theorem self_mem_subtreesList (t : Node) (ht : ¬ t = .empty) : t ∈ subtreesList t := by
  cases t with
  | empty => exact absurd rfl ht
  | leaf k v => exact List.mem_singleton_self _
  | internal cs => exact List.mem_cons_self ..

theorem child_subtreesList (cs : Nibble → Node) (i : Nibble) (s : Node)
    (hs : s ∈ subtreesList (cs i)) : s ∈ subtreesList (.internal cs) := by
  simp only [subtreesList, List.mem_cons, List.mem_flatMap, List.mem_finRange, true_and]
  exact Or.inr ⟨i, hs⟩

theorem reachFlat_mem (t s : Node) (hs : s ∈ subtreesList t) :
    (nodeHash s, flatten s) ∈ reachFlat t := by
  simp only [reachFlat, List.mem_map]
  exact ⟨s, hs, rfl⟩

theorem storeGetGo_sim :
    ∀ (p : List Nibble) (t : Node) (store : Store) (k : Key),
      StoreOK store → (∀ e ∈ reachFlat t, e ∈ store) →
      storeGetGo store k p (nodeHash t) = .ok (getGo t p k)
  | p, .empty, store, k, _, _ => by
    cases p <;> rfl
  | p, .leaf k0 v0, store, k, hok, hreach => by
    have hmem : (nodeHash (.leaf k0 v0), flatten (.leaf k0 v0)) ∈ store :=
      hreach _ (reachFlat_mem _ _ (self_mem_subtreesList _ (by intro h; cases h)))
    have hlk := lookupStore_of_mem store hok (.leaf k0 v0) hmem
    cases p <;>
      · rw [storeGetGo, if_neg (by intro h; cases h), hlk]
        rfl
  | [], .internal cs, store, k, hok, hreach => by
    have hmem : (nodeHash (.internal cs), flatten (.internal cs)) ∈ store :=
      hreach _ (reachFlat_mem _ _ (self_mem_subtreesList _ (by intro h; cases h)))
    have hlk := lookupStore_of_mem store hok (.internal cs) hmem
    rw [storeGetGo, if_neg (by intro h; cases h), hlk]
    rfl
  | n :: rest, .internal cs, store, k, hok, hreach => by
    have hmem : (nodeHash (.internal cs), flatten (.internal cs)) ∈ store :=
      hreach _ (reachFlat_mem _ _ (self_mem_subtreesList _ (by intro h; cases h)))
    have hlk := lookupStore_of_mem store hok (.internal cs) hmem
    rw [storeGetGo, if_neg (by intro h; cases h), hlk]
    show storeGetGo store k rest (nodeHash (cs n)) = .ok (getGo (cs n) rest k)
    exact storeGetGo_sim rest (cs n) store k hok
      (fun e he => hreach e (by
        simp only [reachFlat, List.mem_map] at he ⊢
        obtain ⟨s, hs, hes⟩ := he
        exact ⟨s, child_subtreesList cs n s hs, hes⟩))

theorem leaf_mem_dumpGo :
    ∀ (t : Node) (k : Key) (v : Blob),
      Node.leaf k v ∈ subtreesList t → (k, v) ∈ dumpGo t
  | .empty, _, _, h => absurd h (List.not_mem_nil _)
  | .leaf k0 v0, k, v, h => by
    simp only [subtreesList, List.mem_singleton] at h
    injection h with h1 h2
    rw [h1, h2]
    exact List.mem_singleton_self _
  | .internal cs, k, v, h => by
    simp only [subtreesList, List.mem_cons, List.mem_flatMap, List.mem_finRange,
      true_and] at h
    rcases h with h | ⟨i, hi⟩
    · cases h
    · simp only [dumpGo, List.mem_flatMap, List.mem_finRange, true_and]
      exact ⟨i, leaf_mem_dumpGo (cs i) k v hi⟩

/-- C4: (i) a view reconstructed from a root that was flushed to the
backing store resolves every key written before the flush to its committed
value; (ii) a root that was committed but superseded before the only flush
was never persisted, so a fresh view constructed from it fails with
`MissingNode` on `get`. -/
theorem C4_flush_and_missing_node
    (ops : List (Key × Blob)) (k : Key) (v : Blob) (k1 k2 : Key) (v1 v12 v2 : Blob)
    (hops : ∀ e ∈ ops, e.1.length = keyNibbleLen) (hk : k.length = keyNibbleLen)
    (hlast : lastPut ops k = some v)
    (hk1 : k1.length = keyNibbleLen) (hk2 : k2.length = keyNibbleLen)
    (hne : ¬ k1 = k2) (hv : ¬ v12 = v1) :
    stateGetFromRoot ((((stagePuts (StateTree.new []) ops).commit).flush).store)
        (((stagePuts (StateTree.new []) ops).commit).root_hash) k = .ok (some v) ∧
    stateGetFromRoot
        ((((((((StateTree.new []).put k1 v1).commit).put k1 v12).put k2 v2).commit).flush).store)
        ((((StateTree.new []).put k1 v1).commit).root_hash) k1
      = .error .missingNode := by
  constructor
  · have hf := stagePuts_fields ops (StateTree.new [])
    have hops' : ∀ e ∈ ops.map (fun e => (e.1, some e.2)), e.1.length = keyNibbleLen := by
      intro e he
      simp only [List.mem_map] at he
      obtain ⟨x, hx, hex⟩ := he
      rw [← hex]
      exact hops x hx
    have htree : ((stagePuts (StateTree.new []) ops).commit).tree
        = applyPending .empty (ops.map fun e => (e.1, some e.2)) := by
      show applyPending (stagePuts (StateTree.new []) ops).tree
        (stagePuts (StateTree.new []) ops).pending = _
      rw [hf.1, hf.2.2.2]
      rfl
    have hstore : ((((stagePuts (StateTree.new []) ops).commit).flush).store)
        = reachFlat (applyPending .empty (ops.map fun e => (e.1, some e.2))) := by
      show newNodes ((stagePuts (StateTree.new []) ops).commit).tree
          ((stagePuts (StateTree.new []) ops).commit).flushedTree
        ++ ((stagePuts (StateTree.new []) ops).commit).store = _
      rw [htree]
      rw [show ((stagePuts (StateTree.new []) ops).commit).flushedTree = Node.empty from by
        show (stagePuts (StateTree.new []) ops).flushedTree = Node.empty
        rw [hf.2.2.1]
        rfl]
      rw [show ((stagePuts (StateTree.new []) ops).commit).store = [] from by
        show (stagePuts (StateTree.new []) ops).store = []
        rw [hf.2.1]
        rfl]
      rw [newNodes_empty, List.append_nil]
    have hroot : ((stagePuts (StateTree.new []) ops).commit).root_hash
        = nodeHash (applyPending .empty (ops.map fun e => (e.1, some e.2))) := by
      show nodeHash ((stagePuts (StateTree.new []) ops).commit).tree = _
      rw [htree]
    rw [hstore, hroot, stateGetFromRoot,
      storeGetGo_sim k (applyPending .empty (ops.map fun e => (e.1, some e.2))) _ k
        (storeOK_reachFlat _) (fun e he => he)]
    have hget := getVal_applyPending (ops.map fun e => (e.1, some e.2)) Node.empty k rfl
      hops' hk
    rw [lastWrite_map_puts, hlast] at hget
    rw [show getGo (applyPending .empty (ops.map fun e => (e.1, some e.2))) k k
      = getVal (applyPending .empty (ops.map fun e => (e.1, some e.2))) k from rfl, hget]
    rfl
  · have htr1 : ((((StateTree.new []).put k1 v1).commit)).tree = Node.leaf k1 v1 := by
      show applyPending Node.empty [(k1, some v1)] = Node.leaf k1 v1
      rfl
    have hstep : insertT (Node.leaf k1 v1) k1 v12 = Node.leaf k1 v12 := by
      rw [insertT, insertGo, if_pos rfl]
    have htr2 : ((((((StateTree.new []).put k1 v1).commit).put k1 v12).put k2 v2).commit).tree
        = insertT (Node.leaf k1 v12) k2 v2 := by
      show applyPending ((((StateTree.new []).put k1 v1).commit)).tree
        [(k1, some v12), (k2, some v2)] = _
      rw [htr1]
      show insertT (insertT (Node.leaf k1 v1) k1 v12) k2 v2 = _
      rw [hstep]
    have hwf1 : wfAt (Node.leaf k1 v12) [] = true :=
      wfAt_leaf_iff.mpr ⟨hk1, rfl⟩
    have hwf2 : wfAt (insertT (Node.leaf k1 v12) k2 v2) [] = true :=
      wfAt_insertT _ k2 v2 hwf1 hk2
    have hstore : (((((((StateTree.new []).put k1 v1).commit).put k1 v12).put k2
        v2).commit).flush).store = reachFlat (insertT (Node.leaf k1 v12) k2 v2) := by
      show newNodes (((((((StateTree.new []).put k1 v1).commit).put k1 v12).put k2
            v2).commit)).tree
          (((((((StateTree.new []).put k1 v1).commit).put k1 v12).put k2 v2).commit)).flushedTree
        ++ (((((((StateTree.new []).put k1 v1).commit).put k1 v12).put k2 v2).commit)).store = _
      rw [htr2]
      rw [show (((((((StateTree.new []).put k1 v1).commit).put k1 v12).put k2
          v2).commit)).flushedTree = Node.empty from rfl]
      rw [show (((((((StateTree.new []).put k1 v1).commit).put k1 v12).put k2
          v2).commit)).store = [] from rfl]
      rw [newNodes_empty, List.append_nil]
    have hroot1 : ((((StateTree.new []).put k1 v1).commit)).root_hash
        = nodeHash (Node.leaf k1 v1) := by
      show nodeHash ((((StateTree.new []).put k1 v1).commit)).tree = _
      rw [htr1]
    rw [hstore, hroot1, stateGetFromRoot]
    have hnolookup : lookupStore (reachFlat (insertT (Node.leaf k1 v12) k2 v2))
        (nodeHash (Node.leaf k1 v1)) = none := by
      apply lookupStore_none
      intro e he heq
      simp only [reachFlat, List.mem_map] at he
      obtain ⟨s, hs, hes⟩ := he
      have he1 : nodeHash s = nodeHash (Node.leaf k1 v1) := by
        rw [← heq, ← hes]
      have hsl : s = Node.leaf k1 v1 := nodeHash_inj _ _ he1
      rw [hsl] at hs
      have hdmp := leaf_mem_dumpGo _ k1 v1 hs
      have hm := mem_dumpGo (insertT (Node.leaf k1 v12) k2 v2) [] k1 v1 hwf2 hdmp
      have hget1 : getVal (insertT (Node.leaf k1 v12) k2 v2) k1 = some v1 := hm.2.2
      rw [getVal_insertT_other (Node.leaf k1 v12) k1 k2 v2 hwf1 hk1 hk2 hne] at hget1
      have : some v12 = some v1 := by
        rw [← hget1]
        show some v12 = getGo (Node.leaf k1 v12) k1 k1
        rw [getGo, if_pos rfl]
      exact hv (Option.some.inj this)
    obtain ⟨n, r, hk1c⟩ : ∃ n r, k1 = n :: r := by
      cases hc : k1 with
      | nil => rw [hc] at hk1; cases hk1
      | cons n r => exact ⟨n, r, rfl⟩
    rw [hk1c] at hnolookup ⊢
    rw [storeGetGo, if_neg (by intro h; cases h)]
    rw [show (Node.leaf (n :: r) v1 : Node) = Node.leaf (n :: r) v1 from rfl] at hnolookup
    rw [hnolookup]

/-- Closed witness for C4 at concrete keys: the flushed root resolves; the
superseded, never-flushed root gives `MissingNode` from a fresh view. -/
theorem C4_flush_and_missing_node_witness :
    stateGetFromRoot ((((stagePuts (StateTree.new []) [(wKeyA, [1, 2])]).commit).flush).store)
        (((stagePuts (StateTree.new []) [(wKeyA, [1, 2])]).commit).root_hash) wKeyA
      = .ok (some [1, 2]) ∧
    stateGetFromRoot
        ((((((((StateTree.new []).put wKeyA [1, 2]).commit).put wKeyA [12, 2]).put wKeyB
            [3, 4]).commit).flush).store)
        ((((StateTree.new []).put wKeyA [1, 2]).commit).root_hash) wKeyA
      = .error .missingNode := by
  have h := C4_flush_and_missing_node [(wKeyA, [1, 2])] wKeyA [1, 2] wKeyA wKeyB
    [1, 2] [12, 2] [3, 4] (by decide) (by decide) (by decide) (by decide) (by decide)
    (by decide) (by decide)
  exact h
